import Mathlib

/-!
Verification of the ADWS scheduler core of the itoyori runtime.

This file shallowly embeds the data model and the operations of the
repository (ityr/ito/sched/adws.hpp, ityr/ori/home_manager.hpp,
ityr/container/global_vector.hpp) in Lean and proves properties of
the embedding.  Conventions:

- the C++ double values carried by dist_range are embedded as exact
  rationals, and the literal 0.00001 becomes 1/100000;
- C++ static_cast from double to rank_t (truncation toward zero) is
  the function rtrunc below;
- machine integers are embedded as Int or Nat, with explicit bounds
  where the code depends on them;
- per-depth arrays are embedded as functions from Nat.
-/

namespace Ityr

/-- Truncation toward zero of a rational, the meaning of a C++
static_cast from double to an integer rank. -/
def rtrunc (q : ℚ) : ℤ :=
  q.num.tdiv q.den

/-- On nonnegative values, truncation toward zero agrees with the floor. -/
lemma rtrunc_eq_floor (q : ℚ) (h : 0 ≤ q) : rtrunc q = Int.floor q := by
  unfold rtrunc
  rw [Rat.floor_def]
  exact Int.tdiv_eq_ediv (Rat.num_nonneg.mpr h) (Int.natCast_nonneg _)

/-- Distribution range, a half-open interval of rationals assigning a
task to a contiguous subset of workers (class dist_range). -/
structure DistRange where
  begin_ : ℚ
  end_ : ℚ
deriving DecidableEq

/-- Epsilon used by the divide boundary back-off (constexpr eps = 0.00001). -/
def divideEps : ℚ := 1 / 100000

/-- dist_range::begin_rank. -/
def DistRange.begin_rank (dr : DistRange) : ℤ := rtrunc dr.begin_

/-- dist_range::end_rank. -/
def DistRange.end_rank (dr : DistRange) : ℤ := rtrunc dr.end_

/-- dist_range::owner. -/
def DistRange.owner (dr : DistRange) : ℤ := rtrunc dr.begin_

/-- dist_range::is_at_end_boundary. -/
def DistRange.is_at_end_boundary (dr : DistRange) : Prop :=
  ((rtrunc dr.end_ : ℚ) = dr.end_)

instance (dr : DistRange) : Decidable dr.is_at_end_boundary := by
  unfold DistRange.is_at_end_boundary; infer_instance

/-- dist_range::move_to_end_boundary. -/
def DistRange.move_to_end_boundary (dr : DistRange) : DistRange :=
  { dr with end_ := (rtrunc dr.end_ : ℚ) }

/-- dist_range::is_cross_worker. -/
def DistRange.is_cross_worker (dr : DistRange) : Prop :=
  rtrunc dr.begin_ ≠ rtrunc dr.end_

instance (dr : DistRange) : Decidable dr.is_cross_worker := by
  unfold DistRange.is_cross_worker; infer_instance

/-- dist_range::make_non_cross_worker. -/
def DistRange.make_non_cross_worker (dr : DistRange) : DistRange :=
  { dr with end_ := dr.begin_ }

/-- dist_range::is_sufficiently_small, with the configured threshold
adws_min_drange_size passed as the first argument. -/
def DistRange.is_sufficiently_small (minSize : ℚ) (dr : DistRange) : Prop :=
  dr.end_ - dr.begin_ < minSize

instance (m : ℚ) (dr : DistRange) : Decidable (DistRange.is_sufficiently_small m dr) := by
  unfold DistRange.is_sufficiently_small; infer_instance

/-- dist_range::divide.  Splits at begin + (end - begin) * r1 / (r1 + r2);
if the split point equals the end, it backs off by divideEps and clamps
at the begin, so the left part still targets the same owner. -/
def DistRange.divide (dr : DistRange) (r1 r2 : ℚ) : DistRange × DistRange :=
  let at0 : ℚ := dr.begin_ + (dr.end_ - dr.begin_) * r1 / (r1 + r2)
  let at1 : ℚ :=
    if at0 = dr.end_ then
      let a := at0 - divideEps
      if a < dr.begin_ then dr.begin_ else a
    else at0
  (⟨dr.begin_, at1⟩, ⟨at1, dr.end_⟩)

/-- Iterated forking of one thread: each weight pair (w_rest, w_new)
divides the current rest range; the new part becomes a child and the
rest part stays with the thread (scheduler_adws::fork, cross-worker
branch, without the small-range snapping).  Returns the children in
fork order together with the final rest range. -/
def forkAll (dr : DistRange) : List (ℚ × ℚ) → List DistRange × DistRange
  | [] => ([], dr)
  | w :: ws =>
      let p := dr.divide w.1 w.2
      let rec_ := forkAll p.1 ws
      (p.2 :: rec_.1, rec_.2)

/-- Union of the point sets of a list of distribution ranges. -/
def rangesUnion (l : List DistRange) : Set ℚ :=
  l.foldr (fun c acc => Set.Ico c.begin_ c.end_ ∪ acc) ∅

lemma divide_fst_begin (dr : DistRange) (r1 r2 : ℚ) :
    (dr.divide r1 r2).1.begin_ = dr.begin_ := rfl

lemma divide_snd_end (dr : DistRange) (r1 r2 : ℚ) :
    (dr.divide r1 r2).2.end_ = dr.end_ := rfl

lemma divide_mid_eq (dr : DistRange) (r1 r2 : ℚ) :
    (dr.divide r1 r2).1.end_ = (dr.divide r1 r2).2.begin_ := rfl

/-- The split point stays inside the parent range. -/
lemma divide_mid_bounds (dr : DistRange) (r1 r2 : ℚ)
    (h1 : 0 ≤ r1) (h2 : 0 ≤ r2) (hpos : 0 < r1 + r2) (hbe : dr.begin_ ≤ dr.end_) :
    dr.begin_ ≤ (dr.divide r1 r2).1.end_ ∧ (dr.divide r1 r2).1.end_ ≤ dr.end_ := by
  have hfrac0 : 0 ≤ r1 / (r1 + r2) := div_nonneg h1 (le_of_lt hpos)
  have hfrac1 : r1 / (r1 + r2) ≤ 1 := by
    rw [div_le_one hpos]; linarith
  have hwid : 0 ≤ dr.end_ - dr.begin_ := by linarith
  have hat0lo : dr.begin_ ≤ dr.begin_ + (dr.end_ - dr.begin_) * r1 / (r1 + r2) := by
    have : 0 ≤ (dr.end_ - dr.begin_) * r1 / (r1 + r2) := by
      rw [mul_div_assoc]
      exact mul_nonneg hwid hfrac0
    linarith
  have hat0hi : dr.begin_ + (dr.end_ - dr.begin_) * r1 / (r1 + r2) ≤ dr.end_ := by
    have : (dr.end_ - dr.begin_) * r1 / (r1 + r2) ≤ (dr.end_ - dr.begin_) := by
      rw [mul_div_assoc]
      calc (dr.end_ - dr.begin_) * (r1 / (r1 + r2))
          ≤ (dr.end_ - dr.begin_) * 1 := by
            exact mul_le_mul_of_nonneg_left hfrac1 hwid
        _ = dr.end_ - dr.begin_ := mul_one _
    linarith
  show dr.begin_ ≤ (dr.divide r1 r2).1.end_ ∧ _
  unfold DistRange.divide
  simp only
  split
  · split
    · constructor
      · exact le_refl _
      · exact hbe
    · rename_i heq hlt
      push_neg at hlt
      constructor
      · exact hlt
      · have : 0 < divideEps := by norm_num [divideEps]
        linarith
  · exact ⟨hat0lo, hat0hi⟩

lemma divide_union (dr : DistRange) (r1 r2 : ℚ)
    (h1 : 0 ≤ r1) (h2 : 0 ≤ r2) (hpos : 0 < r1 + r2) (hbe : dr.begin_ ≤ dr.end_) :
    Set.Ico (dr.divide r1 r2).1.begin_ (dr.divide r1 r2).1.end_ ∪
      Set.Ico (dr.divide r1 r2).2.begin_ (dr.divide r1 r2).2.end_
    = Set.Ico dr.begin_ dr.end_ := by
  obtain ⟨hlo, hhi⟩ := divide_mid_bounds dr r1 r2 h1 h2 hpos hbe
  rw [divide_fst_begin, divide_snd_end, ← divide_mid_eq]
  exact Set.Ico_union_Ico_eq_Ico hlo hhi

lemma divide_fst_subset (dr : DistRange) (r1 r2 : ℚ)
    (h1 : 0 ≤ r1) (h2 : 0 ≤ r2) (hpos : 0 < r1 + r2) (hbe : dr.begin_ ≤ dr.end_) :
    Set.Ico (dr.divide r1 r2).1.begin_ (dr.divide r1 r2).1.end_ ⊆
      Set.Ico dr.begin_ dr.end_ := by
  rw [← divide_union dr r1 r2 h1 h2 hpos hbe]
  exact Set.subset_union_left

lemma divide_snd_subset (dr : DistRange) (r1 r2 : ℚ)
    (h1 : 0 ≤ r1) (h2 : 0 ≤ r2) (hpos : 0 < r1 + r2) (hbe : dr.begin_ ≤ dr.end_) :
    Set.Ico (dr.divide r1 r2).2.begin_ (dr.divide r1 r2).2.end_ ⊆
      Set.Ico dr.begin_ dr.end_ := by
  rw [← divide_union dr r1 r2 h1 h2 hpos hbe]
  exact Set.subset_union_right

lemma forkAll_props (dr : DistRange) (ws : List (ℚ × ℚ)) (hbe : dr.begin_ ≤ dr.end_)
    (hw : ∀ w ∈ ws, 0 ≤ w.1 ∧ 0 ≤ w.2 ∧ 0 < w.1 + w.2) :
    (∀ c ∈ (forkAll dr ws).1,
        Set.Ico c.begin_ c.end_ ⊆ Set.Ico dr.begin_ dr.end_) ∧
    (forkAll dr ws).2.begin_ = dr.begin_ ∧
    (forkAll dr ws).2.begin_ ≤ (forkAll dr ws).2.end_ ∧
    rangesUnion (forkAll dr ws).1 ∪
        Set.Ico (forkAll dr ws).2.begin_ (forkAll dr ws).2.end_
      = Set.Ico dr.begin_ dr.end_ := by
  induction ws generalizing dr with
  | nil =>
      refine ⟨by simp [forkAll], rfl, hbe, ?_⟩
      simp [forkAll, rangesUnion]
  | cons w ws ih =>
      obtain ⟨hw1, hw2, hwpos⟩ := hw w (List.mem_cons_self _ _)
      have hwrest : ∀ x ∈ ws, 0 ≤ x.1 ∧ 0 ≤ x.2 ∧ 0 < x.1 + x.2 :=
        fun x hx => hw x (List.mem_cons_of_mem _ hx)
      have hmid := divide_mid_bounds dr w.1 w.2 hw1 hw2 hwpos hbe
      have hbe1 : (dr.divide w.1 w.2).1.begin_ ≤ (dr.divide w.1 w.2).1.end_ := by
        rw [divide_fst_begin]; exact hmid.1
      obtain ⟨ihsub, ihb, ihbe, ihun⟩ := ih (dr.divide w.1 w.2).1 hbe1 hwrest
      have hsub1 := divide_fst_subset dr w.1 w.2 hw1 hw2 hwpos hbe
      have hsub2 := divide_snd_subset dr w.1 w.2 hw1 hw2 hwpos hbe
      refine ⟨?_, ?_, ?_, ?_⟩
      · intro c hc
        simp only [forkAll, List.mem_cons] at hc
        rcases hc with rfl | hc
        · exact hsub2
        · exact fun x hx => hsub1 (ihsub c hc hx)
      · show (forkAll (dr.divide w.1 w.2).1 ws).2.begin_ = dr.begin_
        rw [ihb, divide_fst_begin]
      · exact ihbe
      · have hfst : (forkAll dr (w :: ws)).1 =
            (dr.divide w.1 w.2).2 :: (forkAll (dr.divide w.1 w.2).1 ws).1 := rfl
        have hsnd : (forkAll dr (w :: ws)).2 = (forkAll (dr.divide w.1 w.2).1 ws).2 := rfl
        have hstep : rangesUnion ((dr.divide w.1 w.2).2 ::
              (forkAll (dr.divide w.1 w.2).1 ws).1) =
            Set.Ico (dr.divide w.1 w.2).2.begin_ (dr.divide w.1 w.2).2.end_ ∪
              rangesUnion (forkAll (dr.divide w.1 w.2).1 ws).1 := rfl
        rw [hfst, hsnd, hstep, Set.union_assoc, ihun,
            ← divide_union dr w.1 w.2 hw1 hw2 hwpos hbe, Set.union_comm]

/-- Cross-worker snapping keeps the end inside the parent range. -/
lemma move_to_end_boundary_bounds (dr : DistRange)
    (h0 : 0 ≤ dr.begin_) (hbe : dr.begin_ ≤ dr.end_) (hcw : dr.is_cross_worker) :
    dr.begin_ ≤ dr.move_to_end_boundary.end_ ∧
      dr.move_to_end_boundary.end_ ≤ dr.end_ := by
  have h0e : (0 : ℚ) ≤ dr.end_ := le_trans h0 hbe
  have hb : rtrunc dr.begin_ = Int.floor dr.begin_ := rtrunc_eq_floor _ h0
  have he : rtrunc dr.end_ = Int.floor dr.end_ := rtrunc_eq_floor _ h0e
  have hne : Int.floor dr.begin_ ≠ Int.floor dr.end_ := by
    rw [← hb, ← he]; exact hcw
  have hle : Int.floor dr.begin_ ≤ Int.floor dr.end_ := Int.floor_le_floor hbe
  have hlt : Int.floor dr.begin_ < Int.floor dr.end_ := lt_of_le_of_ne hle hne
  constructor
  · show dr.begin_ ≤ ((rtrunc dr.end_ : ℤ) : ℚ)
    rw [he]
    have h1 : dr.begin_ < (Int.floor dr.begin_ : ℚ) + 1 := Int.lt_floor_add_one _
    have h2 : (Int.floor dr.begin_ : ℚ) + 1 ≤ (Int.floor dr.end_ : ℚ) := by
      have : Int.floor dr.begin_ + 1 ≤ Int.floor dr.end_ := hlt
      exact_mod_cast this
    linarith
  · show ((rtrunc dr.end_ : ℤ) : ℚ) ≤ dr.end_
    rw [he]; exact Int.floor_le _

/-- C1.  Range containment for dist_range::divide as used by fork: the
two parts of a divide share the split point, the split point stays
between the parent bounds even when the epsilon back-off applies, the
optional small-range snapping keeps the end inside the parent range,
and along any sequence of forks every child range is contained in the
range the thread started from while the children plus the final rest
exactly cover it. -/
theorem C1_range_containment :
    (∀ (dr : DistRange) (r1 r2 : ℚ), 0 ≤ r1 → 0 ≤ r2 → 0 < r1 + r2 →
      dr.begin_ ≤ dr.end_ →
      (dr.divide r1 r2).1.begin_ = dr.begin_ ∧
      (dr.divide r1 r2).1.end_ = (dr.divide r1 r2).2.begin_ ∧
      (dr.divide r1 r2).2.end_ = dr.end_ ∧
      dr.begin_ ≤ (dr.divide r1 r2).1.end_ ∧
      (dr.divide r1 r2).1.end_ ≤ dr.end_ ∧
      Set.Ico (dr.divide r1 r2).1.begin_ (dr.divide r1 r2).1.end_ ∪
          Set.Ico (dr.divide r1 r2).2.begin_ (dr.divide r1 r2).2.end_
        = Set.Ico dr.begin_ dr.end_) ∧
    (∀ dr : DistRange, 0 ≤ dr.begin_ → dr.begin_ ≤ dr.end_ → dr.is_cross_worker →
      dr.begin_ ≤ dr.move_to_end_boundary.end_ ∧
      dr.move_to_end_boundary.end_ ≤ dr.end_ ∧
      Set.Ico dr.move_to_end_boundary.begin_ dr.move_to_end_boundary.end_ ⊆
        Set.Ico dr.begin_ dr.end_) ∧
    (∀ (dr : DistRange) (ws : List (ℚ × ℚ)), dr.begin_ ≤ dr.end_ →
      (∀ w ∈ ws, 0 ≤ w.1 ∧ 0 ≤ w.2 ∧ 0 < w.1 + w.2) →
      (∀ c ∈ (forkAll dr ws).1,
          Set.Ico c.begin_ c.end_ ⊆ Set.Ico dr.begin_ dr.end_) ∧
      rangesUnion (forkAll dr ws).1 ∪
          Set.Ico (forkAll dr ws).2.begin_ (forkAll dr ws).2.end_
        = Set.Ico dr.begin_ dr.end_) := by
  refine ⟨?_, ?_, ?_⟩
  · intro dr r1 r2 h1 h2 hpos hbe
    obtain ⟨hlo, hhi⟩ := divide_mid_bounds dr r1 r2 h1 h2 hpos hbe
    exact ⟨divide_fst_begin dr r1 r2, divide_mid_eq dr r1 r2, divide_snd_end dr r1 r2,
      hlo, hhi, divide_union dr r1 r2 h1 h2 hpos hbe⟩
  · intro dr h0 hbe hcw
    obtain ⟨hlo, hhi⟩ := move_to_end_boundary_bounds dr h0 hbe hcw
    refine ⟨hlo, hhi, ?_⟩
    have hb : dr.move_to_end_boundary.begin_ = dr.begin_ := rfl
    rw [hb]
    exact Set.Ico_subset_Ico (le_refl _) hhi
  · intro dr ws hbe hw
    obtain ⟨hsub, _, _, hun⟩ := forkAll_props dr ws hbe hw
    exact ⟨hsub, hun⟩

/-- Witness for C1 at a concrete input: the root range of 4 workers,
divided with weights 1 and 1, then a two-fork sequence. -/
theorem C1_range_containment_w :
    (((⟨0, 4⟩ : DistRange).divide 1 1).1.begin_ = (0 : ℚ) ∧
     ((⟨0, 4⟩ : DistRange).divide 1 1).1.end_ = ((⟨0, 4⟩ : DistRange).divide 1 1).2.begin_ ∧
     ((⟨0, 4⟩ : DistRange).divide 1 1).2.end_ = (4 : ℚ) ∧
     (0 : ℚ) ≤ ((⟨0, 4⟩ : DistRange).divide 1 1).1.end_ ∧
     ((⟨0, 4⟩ : DistRange).divide 1 1).1.end_ ≤ (4 : ℚ) ∧
     Set.Ico ((⟨0, 4⟩ : DistRange).divide 1 1).1.begin_ ((⟨0, 4⟩ : DistRange).divide 1 1).1.end_ ∪
         Set.Ico ((⟨0, 4⟩ : DistRange).divide 1 1).2.begin_ ((⟨0, 4⟩ : DistRange).divide 1 1).2.end_
       = Set.Ico (0 : ℚ) 4) ∧
    (∀ c ∈ (forkAll ⟨0, 4⟩ [(1, 1), (1, 1)]).1,
        Set.Ico c.begin_ c.end_ ⊆ Set.Ico (0 : ℚ) 4) := by
  constructor
  · exact C1_range_containment.1 ⟨0, 4⟩ 1 1 (by norm_num) (by norm_num) (by norm_num)
      (by norm_num)
  · exact (C1_range_containment.2.2 ⟨0, 4⟩ [(1, 1), (1, 1)] (by norm_num)
      (by intro w hw; fin_cases hw <;> norm_num)).1

/-- Task-group version mask (class flipper): a 64-bit word embedded as
a natural number below 2 to the 64. -/
structure Flipper where
  val : ℕ
deriving DecidableEq

/-- flipper::flip, XOR of the bit at the given depth. -/
def Flipper.flip (f : Flipper) (at_ : ℕ) : Flipper :=
  ⟨f.val ^^^ (1 <<< at_)⟩

/-- flipper::match, equality of the masked low bits up to the given depth. -/
def Flipper.matchUntil (f g : Flipper) (until_ : ℕ) : Bool :=
  let mask : ℕ := (1 <<< (until_ + 1)) - 1
  (f.val &&& mask) == (g.val &&& mask)

lemma matchUntil_iff_mod (f g : Flipper) (u : ℕ) :
    f.matchUntil g u = true ↔ f.val % 2 ^ (u + 1) = g.val % 2 ^ (u + 1) := by
  unfold Flipper.matchUntil
  simp only [Nat.shiftLeft_eq, one_mul, Nat.and_pow_two_sub_one_eq_mod, beq_iff_eq]

/-- Local per-depth slot of the distribution tree (dist_tree::node
restricted to the fields the steal path reads). -/
structure DtNode where
  version : ℤ
  tg_version : Flipper
deriving DecidableEq

/-- Local view of the distribution tree used by get_topmost_dominant:
the per-depth local node slots and the per-depth local dominant flags. -/
structure DtState where
  nodes : ℕ → DtNode
  flags : ℕ → ℤ

/-- Environment of one get_topmost_dominant scan: for each depth,
whether this worker owns the node, whether the randomly chosen target
rank happens to be the owner, and the remote flag value observed by
the one-sided CAS or get at that depth. -/
structure DtOracle where
  ownerIsMe : ℕ → Bool
  targetIsOwner : ℕ → Bool
  remoteVal : ℕ → ℤ

/-- One iteration of the get_topmost_dominant loop at a given depth:
possibly refresh the local dominant flag from the remote side exactly
as the source does, then test whether the local flag equals the node
version.  Returns the updated flags and whether the node at this depth
is returned as the topmost dominant node. -/
def gtdStep (nodes : ℕ → DtNode) (or_ : DtOracle) (flags : ℕ → ℤ) (d : ℕ) :
    (ℕ → ℤ) × Bool :=
  let n := nodes d
  let f := flags d
  let f1 : ℤ :=
    if or_.ownerIsMe d = false ∧ f ≠ -n.version then
      if or_.targetIsOwner d = false ∧ f = n.version then
        -- CAS branch: propagate dominance; adopt the remote value only
        -- if it reports the node as removed
        if or_.remoteVal d = -n.version then or_.remoteVal d else f
      else
        -- read branch: adopt the remote value only if it is authoritative
        if or_.remoteVal d = n.version ∨ or_.remoteVal d = -n.version then
          or_.remoteVal d
        else f
    else f
  (fun d0 => if d0 = d then f1 else flags d0, f1 == n.version)

/-- The get_topmost_dominant loop over a list of depths, shallowest
first, threading the locally cached dominant flags. -/
def gtdLoop (nodes : ℕ → DtNode) (or_ : DtOracle) (flags : ℕ → ℤ) :
    List ℕ → (ℕ → ℤ) × Option ℕ
  | [] => (flags, none)
  | d :: rest =>
      let s := gtdStep nodes or_ flags d
      if s.2 then (s.1, some d) else gtdLoop nodes or_ s.1 rest

/-- dist_tree::get_topmost_dominant for a bottom reference of the given
depth (negative depth returns nothing). -/
def get_topmost_dominant (nodes : ℕ → DtNode) (or_ : DtOracle) (flags : ℕ → ℤ)
    (depth : ℤ) : (ℕ → ℤ) × Option ℕ :=
  if depth < 0 then (flags, none)
  else gtdLoop nodes or_ flags (List.range (depth.toNat + 1))

/-- A queue entry as seen by the steal version predicate. -/
structure StealEntry where
  tg_version : Flipper
deriving DecidableEq

/-- The steal scan over the per-depth queues of a victim: each depth
either yields no entry (empty queue or lock failure) or yields one
candidate entry; a candidate failing the version predicate is aborted
and returned to its queue, and the scan continues with the next depth
(steal_from_primary_queues and steal_from_migration_queues). -/
def stealScan (cond : StealEntry → Bool) : List (Option StealEntry) → Option StealEntry
  | [] => none
  | none :: rest => stealScan cond rest
  | some e :: rest => if cond e then some e else stealScan cond rest

lemma gtdStep_flags_other (nodes : ℕ → DtNode) (or_ : DtOracle) (flags : ℕ → ℤ)
    (d d0 : ℕ) (hne : d0 ≠ d) :
    (gtdStep nodes or_ flags d).1 d0 = flags d0 := by
  unfold gtdStep
  simp [hne]

lemma gtdStep_retired (nodes : ℕ → DtNode) (or_ : DtOracle) (flags : ℕ → ℤ) (d : ℕ)
    (hv : (nodes d).version ≠ 0) (hf : flags d = -(nodes d).version) :
    (gtdStep nodes or_ flags d).1 d = flags d ∧ (gtdStep nodes or_ flags d).2 = false := by
  unfold gtdStep
  simp only [hf]
  have hcond : ¬(or_.ownerIsMe d = false ∧ -(nodes d).version ≠ -(nodes d).version) := by
    simp
  rw [if_neg hcond]
  refine ⟨by simp, ?_⟩
  have hne : -(nodes d).version ≠ (nodes d).version := by
    intro h
    exact hv (by linarith)
  simp [hne]

lemma gtdLoop_retired (nodes : ℕ → DtNode) (or_ : DtOracle) (d : ℕ)
    (hv : (nodes d).version ≠ 0) :
    ∀ (ds : List ℕ) (flags : ℕ → ℤ), flags d = -(nodes d).version →
      (gtdLoop nodes or_ flags ds).2 ≠ some d := by
  intro ds
  induction ds with
  | nil => intro flags _; simp [gtdLoop]
  | cons d0 rest ih =>
      intro flags hf
      have hx : gtdLoop nodes or_ flags (d0 :: rest) =
          (if (gtdStep nodes or_ flags d0).2 then ((gtdStep nodes or_ flags d0).1, some d0)
           else gtdLoop nodes or_ (gtdStep nodes or_ flags d0).1 rest) := rfl
      rw [hx]
      by_cases hd : d0 = d
      · subst hd
        obtain ⟨h1, h2⟩ := gtdStep_retired nodes or_ flags d0 hv hf
        rw [h2]
        simp only [Bool.false_eq_true, if_false]
        exact ih _ (h1.trans hf)
      · set s := gtdStep nodes or_ flags d0 with hs
        by_cases hret : s.2
        · rw [if_pos hret]
          simp only [ne_eq, Option.some.injEq]
          exact hd
        · rw [if_neg hret]
          have : s.1 d = flags d := gtdStep_flags_other nodes or_ flags d0 d (fun h => hd h.symm)
          exact ih s.1 (this.trans hf)

lemma gtdLoop_returns_dominant (nodes : ℕ → DtNode) (or_ : DtOracle) :
    ∀ (ds : List ℕ) (flags : ℕ → ℤ) (d : ℕ),
      (gtdLoop nodes or_ flags ds).2 = some d →
      (gtdLoop nodes or_ flags ds).1 d = (nodes d).version := by
  intro ds
  induction ds with
  | nil => intro flags d h; simp [gtdLoop] at h
  | cons d0 rest ih =>
      intro flags d h
      have hx : gtdLoop nodes or_ flags (d0 :: rest) =
          (if (gtdStep nodes or_ flags d0).2 then ((gtdStep nodes or_ flags d0).1, some d0)
           else gtdLoop nodes or_ (gtdStep nodes or_ flags d0).1 rest) := rfl
      rw [hx] at h ⊢
      by_cases hret : (gtdStep nodes or_ flags d0).2
      · rw [if_pos hret] at h ⊢
        simp only [Option.some.injEq] at h
        subst h
        have := hret
        unfold gtdStep at this ⊢
        simp only [beq_iff_eq] at this
        simp [this]
      · rw [if_neg hret] at h ⊢
        exact ih _ _ h

lemma stealScan_cond (cond : StealEntry → Bool) :
    ∀ (qs : List (Option StealEntry)) (e : StealEntry),
      stealScan cond qs = some e → cond e = true := by
  intro qs
  induction qs with
  | nil => intro e h; simp [stealScan] at h
  | cons q rest ih =>
      intro e h
      match q with
      | none => exact ih e h
      | some e0 =>
          unfold stealScan at h
          by_cases hc : cond e0
          · rw [if_pos hc] at h
            simp only [Option.some.injEq] at h
            subst h; exact hc
          · rw [if_neg hc] at h
            exact ih e h

/-- C2.  Version safety of the steal path: a steal accepts an entry
only when its task-group version matches the dominant version in the
low depth plus one bits; the node returned by get_topmost_dominant has
its local dominant flag equal to plus version at return; and a retired
node, whose local dominant flag holds minus version, is never returned
by get_topmost_dominant, so no steal predicate is ever derived from a
retired task group. -/
theorem C2_version_safety :
    (∀ (cond : StealEntry → Bool) (qs : List (Option StealEntry)) (e : StealEntry),
        stealScan cond qs = some e → cond e = true) ∧
    (∀ (domTg : Flipper) (d : ℕ) (qs : List (Option StealEntry)) (e : StealEntry),
        stealScan (fun en => en.tg_version.matchUntil domTg d) qs = some e →
        e.tg_version.val % 2 ^ (d + 1) = domTg.val % 2 ^ (d + 1)) ∧
    (∀ (nodes : ℕ → DtNode) (or_ : DtOracle) (flags : ℕ → ℤ) (depth : ℤ) (d : ℕ),
        (get_topmost_dominant nodes or_ flags depth).2 = some d →
        (get_topmost_dominant nodes or_ flags depth).1 d = (nodes d).version) ∧
    (∀ (nodes : ℕ → DtNode) (or_ : DtOracle) (flags : ℕ → ℤ) (depth : ℤ) (d : ℕ),
        (nodes d).version ≠ 0 → flags d = -(nodes d).version →
        (get_topmost_dominant nodes or_ flags depth).2 ≠ some d) := by
  refine ⟨stealScan_cond, ?_, ?_, ?_⟩
  · intro domTg d qs e h
    exact (matchUntil_iff_mod _ _ _).mp (stealScan_cond _ qs e h)
  · intro nodes or_ flags depth d h
    unfold get_topmost_dominant at h ⊢
    by_cases hd : depth < 0
    · rw [if_pos hd] at h; simp at h
    · rw [if_neg hd] at h ⊢
      exact gtdLoop_returns_dominant nodes or_ _ _ d h
  · intro nodes or_ flags depth d hv hf
    unfold get_topmost_dominant
    by_cases hd : depth < 0
    · rw [if_pos hd]; simp
    · rw [if_neg hd]
      exact gtdLoop_retired nodes or_ d hv _ flags hf

/-- Witness for C2 at concrete inputs: a two-entry queue whose first
entry fails the version match and whose second entry passes, and a
one-node distribution tree whose node is retired. -/
theorem C2_version_safety_w :
    (stealScan (fun en => en.tg_version.matchUntil ⟨0⟩ 1)
        [some ⟨⟨3⟩⟩, some ⟨⟨4⟩⟩] = some ⟨⟨4⟩⟩ →
      (4 : ℕ) % 2 ^ 2 = (0 : ℕ) % 2 ^ 2) ∧
    ((get_topmost_dominant (fun _ => ⟨5, ⟨0⟩⟩) ⟨fun _ => true, fun _ => true, fun _ => 0⟩
        (fun _ => -5) 0).2 ≠ some 0) := by
  constructor
  · intro h
    exact C2_version_safety.2.1 ⟨0⟩ 1 [some ⟨⟨3⟩⟩, some ⟨⟨4⟩⟩] ⟨⟨4⟩⟩ h
  · exact C2_version_safety.2.2.2 (fun _ => ⟨5, ⟨0⟩⟩) ⟨fun _ => true, fun _ => true, fun _ => 0⟩
      (fun _ => -5) 0 0 (by norm_num) rfl

/-- Joint state of one completed non-serialized child thread and its
joining parent, as far as the resume_flag protocol is concerned
(thread_state fields retval, resume_flag, suspended, plus the control
positions of on_die_drifted and join). -/
structure JoinRaceState where
  flag : ℕ
  retvalPub : Bool
  suspWritten : Bool
  faaChild : Option ℕ
  faaParent : Option ℕ
  cpc : ℕ
  ppc : ℕ
  childToSched : Bool
  childResumedParent : Bool
  parentToSched : Bool
  parentInline : Bool
  parentFast : Bool
deriving DecidableEq

/-- Initial state: resume_flag is zero, nothing published. -/
def joinRaceInit : JoinRaceState :=
  ⟨0, false, false, none, none, 0, 0, false, false, false, false, false⟩

/-- One step of the dying child (on_die_drifted): first publish the
return value with a remote put, then fetch-and-add one on resume_flag;
a previous value of zero sends the child to the scheduler, a non-zero
previous value makes the child resume the suspended parent. -/
def childStep (s : JoinRaceState) : JoinRaceState :=
  if s.cpc = 0 then { s with retvalPub := true, cpc := 1 }
  else if s.cpc = 1 then
    { s with flag := s.flag + 1, faaChild := some s.flag, cpc := 2,
             childToSched := s.flag == 0, childResumedParent := s.flag != 0 }
  else s

/-- One step of the joining parent (join, non-serialized branch): read
resume_flag; if it is already at least one, take the fast path and read
the return value without touching resume_flag; otherwise evacuate the
continuation into suspended, then fetch-and-add one on resume_flag; a
previous value of zero switches the parent to the scheduler, a non-zero
previous value lets the parent continue in place. -/
def parentStep (s : JoinRaceState) : JoinRaceState :=
  if s.ppc = 0 then
    if 1 ≤ s.flag then { s with ppc := 4, parentFast := true }
    else { s with ppc := 1 }
  else if s.ppc = 1 then { s with suspWritten := true, ppc := 2 }
  else if s.ppc = 2 then
    { s with flag := s.flag + 1, faaParent := some s.flag, ppc := 3,
             parentToSched := s.flag == 0, parentInline := s.flag != 0 }
  else s

/-- Run the race under an arbitrary interleaving; true schedules the
child, false schedules the parent. -/
def joinRaceRun (sched : List Bool) : JoinRaceState :=
  sched.foldl (fun s c => if c then childStep s else parentStep s) joinRaceInit

/-- Both sides have finished: the child has died and the parent has
completed its join, by the slow path or by the fast path. -/
def joinRaceDone (s : JoinRaceState) : Prop :=
  s.cpc = 2 ∧ (s.ppc = 3 ∨ s.ppc = 4)

instance (s : JoinRaceState) : Decidable (joinRaceDone s) := by
  unfold joinRaceDone; infer_instance

/-- All states reachable from joinRaceInit under any interleaving of
child and parent steps, enumerated explicitly. -/
def jrStates : List JoinRaceState :=
  [ ⟨0, false, false, none, none, 0, 0, false, false, false, false, false⟩,
    ⟨0, true , false, none, none, 1, 0, false, false, false, false, false⟩,
    ⟨0, false, false, none, none, 0, 1, false, false, false, false, false⟩,
    ⟨1, true , false, some 0, none, 2, 0, true , false, false, false, false⟩,
    ⟨0, true , false, none, none, 1, 1, false, false, false, false, false⟩,
    ⟨0, false, true , none, none, 0, 2, false, false, false, false, false⟩,
    ⟨1, true , false, some 0, none, 2, 4, true , false, false, false, true ⟩,
    ⟨1, true , false, some 0, none, 2, 1, true , false, false, false, false⟩,
    ⟨0, true , true , none, none, 1, 2, false, false, false, false, false⟩,
    ⟨1, false, true , none, some 0, 0, 3, false, false, true , false, false⟩,
    ⟨1, true , true , some 0, none, 2, 2, true , false, false, false, false⟩,
    ⟨1, true , true , none, some 0, 1, 3, false, false, true , false, false⟩,
    ⟨2, true , true , some 0, some 1, 2, 3, true , false, false, true , false⟩,
    ⟨2, true , true , some 1, some 0, 2, 3, false, true , true , false, false⟩ ]

lemma jrStates_closed :
    ∀ s ∈ jrStates, childStep s ∈ jrStates ∧ parentStep s ∈ jrStates := by
  decide

lemma joinRaceRun_mem (sched : List Bool) : joinRaceRun sched ∈ jrStates := by
  unfold joinRaceRun
  induction sched using List.reverseRecOn with
  | nil => decide
  | append_singleton xs c ih =>
      rw [List.foldl_append, List.foldl_cons, List.foldl_nil]
      cases c
      · exact (jrStates_closed _ ih).2
      · exact (jrStates_closed _ ih).1

/-- C3 counterexample.  When the child completes before the parent
reaches join (schedule: child publishes, child fetch-adds, parent reads
resume_flag), the join takes the fast path and resume_flag has been
incremented exactly once, not twice, although the thread completed and
was joined without serialization. -/
theorem C3_resume_flag_cex :
    joinRaceDone (joinRaceRun [true, true, false]) ∧
    (joinRaceRun [true, true, false]).flag = 1 ∧
    (joinRaceRun [true, true, false]).flag ≠ 2 := by
  decide

/-- C3 amended.  For every completed non-serialized thread and join,
resume_flag ends at one or two: the child always fetch-adds exactly
once; the parent fetch-adds exactly once unless it observes the child
already completed, in which case it skips the fetch-add (fast path)
and the flag ends at one.  Among the fetch-adds that do occur, exactly
one observes a previous value of zero, and the last writer, the one
observing a non-zero previous value, is the party that resumes the
suspended continuation (child side) or continues in place with the
published value (parent side); the suspended continuation is always
written before the child can observe a non-zero previous value, and
the return value is published before any resumption. -/
theorem C3_resume_race_amended (sched : List Bool)
    (h : joinRaceDone (joinRaceRun sched)) :
    (joinRaceRun sched).retvalPub = true ∧
    ((joinRaceRun sched).flag = 1 ∨ (joinRaceRun sched).flag = 2) ∧
    ((joinRaceRun sched).flag = 1 ↔ (joinRaceRun sched).parentFast = true) ∧
    (((joinRaceRun sched).faaChild = some 0 ∧ (joinRaceRun sched).faaParent = none ∧
        (joinRaceRun sched).flag = 1) ∨
     ((joinRaceRun sched).faaChild = some 0 ∧ (joinRaceRun sched).faaParent = some 1 ∧
        (joinRaceRun sched).flag = 2) ∨
     ((joinRaceRun sched).faaChild = some 1 ∧ (joinRaceRun sched).faaParent = some 0 ∧
        (joinRaceRun sched).flag = 2)) ∧
    ((joinRaceRun sched).childResumedParent = true →
      (joinRaceRun sched).suspWritten = true ∧ (joinRaceRun sched).faaChild = some 1) ∧
    ((joinRaceRun sched).parentInline = true ↔ (joinRaceRun sched).faaParent = some 1) ∧
    ((joinRaceRun sched).childResumedParent = true ∨
     (joinRaceRun sched).parentInline = true ∨
     ((joinRaceRun sched).parentFast = true ∧ (joinRaceRun sched).flag = 1)) := by
  have hm := joinRaceRun_mem sched
  revert h
  have hall : ∀ s ∈ jrStates, joinRaceDone s →
      s.retvalPub = true ∧
      (s.flag = 1 ∨ s.flag = 2) ∧
      (s.flag = 1 ↔ s.parentFast = true) ∧
      ((s.faaChild = some 0 ∧ s.faaParent = none ∧ s.flag = 1) ∨
       (s.faaChild = some 0 ∧ s.faaParent = some 1 ∧ s.flag = 2) ∨
       (s.faaChild = some 1 ∧ s.faaParent = some 0 ∧ s.flag = 2)) ∧
      (s.childResumedParent = true → s.suspWritten = true ∧ s.faaChild = some 1) ∧
      (s.parentInline = true ↔ s.faaParent = some 1) ∧
      (s.childResumedParent = true ∨ s.parentInline = true ∨
       (s.parentFast = true ∧ s.flag = 1)) := by
    decide
  exact hall _ hm

/-- Witness for C3 amended at the schedule where the parent suspends
first and the child then resumes it. -/
theorem C3_resume_race_amended_w :
    (joinRaceRun [false, false, false, true, true]).retvalPub = true ∧
    ((joinRaceRun [false, false, false, true, true]).faaChild = some 1 →
      (joinRaceRun [false, false, false, true, true]).flag = 2) := by
  have h := C3_resume_race_amended [false, false, false, true, true] (by decide)
  refine ⟨h.1, ?_⟩
  intro hc
  rcases h.2.2.2.1 with h3 | h3 | h3
  · rw [hc] at h3
    exact absurd h3.1 (by decide)
  · rw [hc] at h3
    exact absurd h3.1 (by decide)
  · exact h3.2.2

/-- Primary work-stealing queue entry (struct primary_wsq_entry); a
null evacuation pointer is none, a non-null one is some with the
pointer value abstracted as a natural number. -/
structure PrimaryWsqEntry where
  evacuation_ptr : Option ℕ
  frame_base : ℕ
  frame_size : ℕ
  tg_version : Flipper
deriving DecidableEq

/-- Migration work-stealing queue entry (struct migration_wsq_entry). -/
structure MigrationWsqEntry where
  is_continuation : Bool
  evacuation_ptr : Option ℕ
  frame_base : ℕ
  frame_size : ℕ
  tg_version : Flipper
deriving DecidableEq

/-- Outcome of on_die_workfirst: either the popped entry is taken as
the own continuation of the dying thread and the child is serialized,
or control falls through to on_die_drifted. -/
inductive DieDecision where
  | serialize
  | driftDie
deriving DecidableEq

/-- scheduler_adws::on_die_workfirst on the primary queue at the
current depth, modelled on the per-depth queue contents with the owner
end at the head.  The source branches only on the evacuation pointer
of the popped entry and asserts frame_base == cf_top_ inside the
serialize branch (ITYR_CHECK); an entry with a non-null evacuation
pointer is pushed back onto the same queue.  The cf_top_ argument is
the asserted frame, kept for stating that assertion. -/
def on_die_workfirst_primary (q : List PrimaryWsqEntry) (cf_top : ℕ) :
    DieDecision × List PrimaryWsqEntry :=
  match q with
  | [] => (.driftDie, [])
  | qe :: rest =>
      if qe.evacuation_ptr = none then (.serialize, rest)
      else (.driftDie, qe :: rest)

/-- scheduler_adws::on_die_workfirst on the migration queue at the
current depth: the popped entry is taken as the own continuation only
if it is a continuation with a null evacuation pointer. -/
def on_die_workfirst_migration (q : List MigrationWsqEntry) (cf_top : ℕ) :
    DieDecision × List MigrationWsqEntry :=
  match q with
  | [] => (.driftDie, [])
  | qe :: rest =>
      if qe.is_continuation = true ∧ qe.evacuation_ptr = none then (.serialize, rest)
      else (.driftDie, qe :: rest)

/-- C4.  Work-first pop-and-check: under the invariant asserted at the
pop site (a popped entry with a null evacuation pointer is the frame
at cf_top_), the child is serialized if and only if the popped entry
has a null evacuation pointer and its frame base equals cf_top_ (and,
on the migration queue, is a continuation); in every other case the
popped entry is pushed back, leaving the queue unchanged, and the
drift-die path is taken; serialization consumes exactly the popped
entry. -/
theorem C4_workfirst_pop_check :
    (∀ (q : List PrimaryWsqEntry) (cf_top : ℕ),
      (∀ e, q.head? = some e → e.evacuation_ptr = none → e.frame_base = cf_top) →
      ((on_die_workfirst_primary q cf_top).1 = .serialize ↔
        ∃ e, q.head? = some e ∧ e.evacuation_ptr = none ∧ e.frame_base = cf_top) ∧
      ((on_die_workfirst_primary q cf_top).1 = .driftDie →
        (on_die_workfirst_primary q cf_top).2 = q) ∧
      ((on_die_workfirst_primary q cf_top).1 = .serialize →
        (on_die_workfirst_primary q cf_top).2 = q.tail)) ∧
    (∀ (q : List MigrationWsqEntry) (cf_top : ℕ),
      (∀ e, q.head? = some e → e.is_continuation = true → e.evacuation_ptr = none →
        e.frame_base = cf_top) →
      ((on_die_workfirst_migration q cf_top).1 = .serialize ↔
        ∃ e, q.head? = some e ∧ e.is_continuation = true ∧ e.evacuation_ptr = none ∧
          e.frame_base = cf_top) ∧
      ((on_die_workfirst_migration q cf_top).1 = .driftDie →
        (on_die_workfirst_migration q cf_top).2 = q) ∧
      ((on_die_workfirst_migration q cf_top).1 = .serialize →
        (on_die_workfirst_migration q cf_top).2 = q.tail)) := by
  constructor
  · intro q cf_top hinv
    match q with
    | [] =>
        refine ⟨?_, fun _ => rfl, ?_⟩
        · simp [on_die_workfirst_primary]
        · intro h
          simp [on_die_workfirst_primary] at h
    | qe :: rest =>
        by_cases he : qe.evacuation_ptr = none
        · have hfb : qe.frame_base = cf_top := hinv qe rfl he
          refine ⟨?_, ?_, ?_⟩
          · simp only [on_die_workfirst_primary, if_pos he]
            constructor
            · intro _
              exact ⟨qe, rfl, he, hfb⟩
            · intro _
              trivial
          · intro h
            simp [on_die_workfirst_primary, if_pos he] at h
          · intro _
            simp [on_die_workfirst_primary, if_pos he]
        · refine ⟨?_, fun _ => by simp [on_die_workfirst_primary, if_neg he], ?_⟩
          · simp only [on_die_workfirst_primary, if_neg he]
            constructor
            · intro h
              exact absurd h (by simp)
            · rintro ⟨e, he0, he1, _⟩
              simp only [List.head?_cons, Option.some.injEq] at he0
              exact absurd (he0 ▸ he1) he
          · intro h
            simp [on_die_workfirst_primary, if_neg he] at h
  · intro q cf_top hinv
    match q with
    | [] =>
        refine ⟨?_, fun _ => rfl, ?_⟩
        · simp [on_die_workfirst_migration]
        · intro h
          simp [on_die_workfirst_migration] at h
    | qe :: rest =>
        by_cases he : qe.is_continuation = true ∧ qe.evacuation_ptr = none
        · have hfb : qe.frame_base = cf_top := hinv qe rfl he.1 he.2
          refine ⟨?_, ?_, ?_⟩
          · simp only [on_die_workfirst_migration, if_pos he]
            constructor
            · intro _
              exact ⟨qe, rfl, he.1, he.2, hfb⟩
            · intro _
              trivial
          · intro h
            simp [on_die_workfirst_migration, if_pos he] at h
          · intro _
            simp [on_die_workfirst_migration, if_pos he]
        · refine ⟨?_, fun _ => by simp [on_die_workfirst_migration, if_neg he], ?_⟩
          · simp only [on_die_workfirst_migration, if_neg he]
            constructor
            · intro h
              exact absurd h (by simp)
            · rintro ⟨e, he0, he1, he2, _⟩
              simp only [List.head?_cons, Option.some.injEq] at he0
              subst he0
              exact absurd ⟨he1, he2⟩ he
          · intro h
            simp [on_die_workfirst_migration, if_neg he] at h

/-- Witness for C4: a primary queue holding the own on-stack
continuation at frame base 7 with cf_top_ equal to 7 serializes, and
an evacuated entry is pushed back unchanged. -/
theorem C4_workfirst_pop_check_w :
    ((on_die_workfirst_primary [⟨none, 7, 64, ⟨0⟩⟩] 7).1 = .serialize ↔
      ∃ e, ([⟨none, 7, 64, ⟨0⟩⟩] : List PrimaryWsqEntry).head? = some e ∧
        e.evacuation_ptr = none ∧ e.frame_base = 7) ∧
    ((on_die_workfirst_primary [⟨some 3, 7, 64, ⟨0⟩⟩] 7).1 = .driftDie →
      (on_die_workfirst_primary [⟨some 3, 7, 64, ⟨0⟩⟩] 7).2 = [⟨some 3, 7, 64, ⟨0⟩⟩]) := by
  constructor
  · exact (C4_workfirst_pop_check.1 [⟨none, 7, 64, ⟨0⟩⟩] 7
      (by intro e he _; simp only [List.head?_cons, Option.some.injEq] at he; rw [← he])).1
  · exact (C4_workfirst_pop_check.1 [⟨some 3, 7, 64, ⟨0⟩⟩] 7
      (by intro e he hn; simp only [List.head?_cons, Option.some.injEq] at he
          rw [← he] at hn; simp at hn)).2.1

/-- Reference to a distribution-tree node (dist_tree::node_ref); the
default reference has owner rank -1 and depth -1. -/
structure NodeRef where
  owner_rank : ℤ
  depth : ℤ
deriving DecidableEq

/-- Full local distribution-tree node (dist_tree::node). -/
structure DtFullNode where
  parent : NodeRef
  drange : DistRange
  tg_version : Flipper
  version : ℤ
deriving DecidableEq

/-- Per-worker local part of the distribution tree: node slots,
dominant flags and version counters, one slot per depth. -/
structure DistTreeLocal where
  nodes : ℕ → DtFullNode
  flags : ℕ → ℤ
  versions : ℕ → ℤ

/-- Largest value of the C++ int version counter. -/
def intMax : ℤ := 2147483647

/-- dist_tree::append: writes the local slot at the parent depth plus
one with a fresh version (advanced by the rank count, reset near
overflow) and returns the reference (my rank, new depth). -/
def dtree_append (my_rank n_ranks : ℤ) (dt : DistTreeLocal) (parent : NodeRef)
    (drange : DistRange) (tg_version : Flipper) : DistTreeLocal × NodeRef :=
  let depth : ℤ := parent.depth + 1
  let di : ℕ := depth.toNat
  let v0 : ℤ := if intMax - n_ranks ≤ dt.versions di then my_rank + 1 else dt.versions di
  let v1 : ℤ := v0 + n_ranks
  ({ nodes := fun d => if d = di then ⟨parent, drange, tg_version, v1⟩ else dt.nodes d,
     flags := dt.flags,
     versions := fun d => if d = di then v1 else dt.versions d },
   ⟨my_rank, depth⟩)

/-- Per-worker scheduler state touched by task_group_begin and
task_group_end: the thread-local storage of the running thread, the
local distribution tree, both work-stealing queues, and event logs for
the outgoing one-sided operations (mailbox puts and remote
dominant-flag puts). -/
structure WorkerState where
  tls_drange : DistRange
  tls_ref : NodeRef
  tls_tg_version : Flipper
  tls_undistributed : Bool
  dtree : DistTreeLocal
  dtree_bottom_ref : NodeRef
  primary_wsq : ℕ → List PrimaryWsqEntry
  migration_wsq : ℕ → List MigrationWsqEntry
  mailbox_puts : List ℤ
  dominant_puts : List (ℤ × ℤ × ℤ)
  migrated : Bool

/-- Task-group record saved by begin and consumed by end
(struct task_group_data, without the profiler field). -/
structure TaskGroupData where
  drange : DistRange
  owns_dtree_node : Bool
deriving DecidableEq

/-- dist_tree::set_dominant: stores plus or minus the node version in
the local dominant flag at the referenced depth and, when the owner is
another rank, logs the same value as a one-sided atomic put to the
owner. -/
def set_dominant (my_rank : ℤ) (ws : WorkerState) (nr : NodeRef) (dominant : Bool) :
    WorkerState :=
  let di : ℕ := nr.depth.toNat
  let value : ℤ := (if dominant then 1 else -1) * (ws.dtree.nodes di).version
  { ws with
    dtree := { ws.dtree with flags := fun d => if d = di then value else ws.dtree.flags d },
    dominant_puts :=
      if nr.owner_rank ≠ my_rank then (nr.owner_rank, nr.depth, value) :: ws.dominant_puts
      else ws.dominant_puts }

/-- scheduler_adws::task_group_begin (profiler bookkeeping omitted):
saves the current distribution range; a cross-worker range appends a
distribution-tree node when the depth limit allows, making this thread
own the node, and marks the thread undistributed. -/
def task_group_begin (max_depth my_rank n_ranks : ℤ) (ws : WorkerState) :
    WorkerState × TaskGroupData :=
  let tgdata : TaskGroupData := ⟨ws.tls_drange, false⟩
  if ws.tls_drange.is_cross_worker then
    if ws.tls_ref.depth + 1 < max_depth then
      let ar := dtree_append my_rank n_ranks ws.dtree ws.tls_ref ws.tls_drange ws.tls_tg_version
      ({ ws with dtree := ar.1, tls_ref := ar.2, dtree_bottom_ref := ar.2,
                 tls_undistributed := true },
       ⟨ws.tls_drange, true⟩)
    else
      ({ ws with tls_undistributed := true }, tgdata)
  else (ws, tgdata)

/-- Intermediate ranks of a cross-worker range, begin rank plus one up
to end rank minus one, receivers of the dummy dist-tree tasks. -/
def intermediateRanks (dr : DistRange) : List ℤ :=
  (List.range (dr.end_rank - dr.begin_rank - 1).toNat).map
    (fun i => dr.begin_rank + 1 + (i : ℤ))

/-- scheduler_adws::on_task_die (profiler bookkeeping omitted): a dying
cross-worker thread marks its distribution-tree node dominant, sends a
dummy task to every intermediate rank of its range when it never
distributed child cross-worker tasks, and then makes its own range
non-cross-worker so the scope runs at most once. -/
def on_task_die (my_rank : ℤ) (ws : WorkerState) : WorkerState :=
  if ws.tls_drange.is_cross_worker then
    let ws1 := set_dominant my_rank ws ws.tls_ref true
    let newPuts :=
      if ws1.tls_undistributed = true ∧
          ws1.tls_drange.begin_rank + 1 < ws1.tls_drange.end_rank then
        intermediateRanks ws1.tls_drange ++ ws1.mailbox_puts
      else ws1.mailbox_puts
    let ws2 := { ws1 with mailbox_puts := newPuts }
    { ws2 with tls_drange := ws2.tls_drange.make_non_cross_worker }
  else ws

/-- Evacuation of one primary queue entry still on the stack
(scheduler_adws::evacuate): the frame bytes move into a remotable
allocation; the pointer value is abstracted as the frame base. -/
def evacP (e : PrimaryWsqEntry) : PrimaryWsqEntry :=
  if e.evacuation_ptr = none then { e with evacuation_ptr := some e.frame_base } else e

/-- Evacuation of one migration queue entry still on the stack. -/
def evacM (e : MigrationWsqEntry) : MigrationWsqEntry :=
  if e.is_continuation = true ∧ e.evacuation_ptr = none then
    { e with evacuation_ptr := some e.frame_base }
  else e

/-- scheduler_adws::evacuate_all for a thread using the primary queue:
every on-stack continuation at depths up to the current depth is
evacuated and its queue entry patched in place. -/
def evacuate_all_primary (dep : ℤ) (q : ℕ → List PrimaryWsqEntry) :
    ℕ → List PrimaryWsqEntry :=
  fun d => if (d : ℤ) ≤ dep then (q d).map evacP else q d

/-- scheduler_adws::task_group_end (callbacks and profiler bookkeeping
omitted): runs on_task_die, restores the saved distribution range, and
for a cross-worker range migrates the continuation to the owner when
the owner is another rank (evacuating all queued continuations first),
marks an owned distribution-tree node non-dominant, resets the
thread reference to the node parent, and flips the task-group version
at the node depth. -/
def task_group_end (max_depth my_rank n_ranks : ℤ) (ws : WorkerState)
    (tg : TaskGroupData) : WorkerState :=
  let ws1 := on_task_die my_rank ws
  let ws2 := { ws1 with tls_drange := tg.drange }
  if ws2.tls_drange.is_cross_worker then
    let target : ℤ := ws2.tls_drange.owner
    let ws3 :=
      if target ≠ my_rank then
        { ws2 with migrated := true,
                   mailbox_puts := target :: ws2.mailbox_puts,
                   primary_wsq := evacuate_all_primary ws2.tls_ref.depth ws2.primary_wsq }
      else ws2
    let ws4 :=
      if tg.owns_dtree_node = true then
        let ws3a := set_dominant my_rank ws3 ws3.tls_ref false
        let node := ws3a.dtree.nodes ws3a.tls_ref.depth.toNat
        { ws3a with tls_ref := node.parent, dtree_bottom_ref := node.parent,
                    tls_tg_version := ws3a.tls_tg_version.flip (node.parent.depth + 1).toNat }
      else ws3
    { ws4 with tls_undistributed := false }
  else ws2

/-- A task_group_begin immediately followed by task_group_end with no
intervening forks. -/
def task_group_round_trip (max_depth my_rank n_ranks : ℤ) (ws : WorkerState) : WorkerState :=
  task_group_end max_depth my_rank n_ranks
    (task_group_begin max_depth my_rank n_ranks ws).1
    (task_group_begin max_depth my_rank n_ranks ws).2

/-- Worker state used by the C5 counterexample: rank 0 of 4 workers
runs a thread owning the whole range with the root reference. -/
def c5Init : WorkerState :=
  { tls_drange := ⟨0, 4⟩, tls_ref := ⟨-1, -1⟩, tls_tg_version := ⟨0⟩,
    tls_undistributed := false,
    dtree := ⟨fun _ => ⟨⟨-1, -1⟩, ⟨0, 0⟩, ⟨0⟩, 0⟩, fun _ => 0, fun _ => 1⟩,
    dtree_bottom_ref := ⟨-1, -1⟩,
    primary_wsq := fun _ => [], migration_wsq := fun _ => [],
    mailbox_puts := [], dominant_puts := [], migrated := false }

/-- C5 counterexample.  On rank 0 of 4 workers with a cross-worker
range and depth limit 2, task_group_begin immediately followed by
task_group_end flips the task-group version exactly once at the owned
depth, so tg_version does not return to its original value: the round
trip is not the identity on tg_version. -/
theorem C5_task_group_cex :
    (task_group_round_trip 2 0 4 c5Init).tls_tg_version ≠ c5Init.tls_tg_version ∧
    (task_group_round_trip 2 0 4 c5Init).tls_tg_version = ⟨1⟩ := by
  constructor
  · decide
  · decide

/-- C5 amended.  For a thread running on the rank owning its range,
task_group_begin immediately followed by task_group_end restores
tls.drange and tls.dtree_node_ref and leaves both work-stealing queues
untouched; but tg_version at the owned depth is flipped exactly once,
not twice, so it differs from its original value at that bit; when no
distribution-tree node is owned (non-cross-worker range or exhausted
depth), tg_version is unchanged as well. -/
theorem C5_task_group_round_trip_amended (max_depth my_rank n_ranks : ℤ)
    (ws : WorkerState) (howner : ws.tls_drange.owner = my_rank) :
    (task_group_round_trip max_depth my_rank n_ranks ws).tls_drange = ws.tls_drange ∧
    (task_group_round_trip max_depth my_rank n_ranks ws).tls_ref = ws.tls_ref ∧
    (task_group_round_trip max_depth my_rank n_ranks ws).primary_wsq = ws.primary_wsq ∧
    (task_group_round_trip max_depth my_rank n_ranks ws).migration_wsq = ws.migration_wsq ∧
    (task_group_round_trip max_depth my_rank n_ranks ws).migrated = ws.migrated ∧
    (ws.tls_drange.is_cross_worker → ws.tls_ref.depth + 1 < max_depth →
      (task_group_round_trip max_depth my_rank n_ranks ws).tls_tg_version
        = ws.tls_tg_version.flip (ws.tls_ref.depth + 1).toNat) ∧
    (¬ws.tls_drange.is_cross_worker →
      (task_group_round_trip max_depth my_rank n_ranks ws).tls_tg_version
        = ws.tls_tg_version) ∧
    (ws.tls_drange.is_cross_worker → ¬(ws.tls_ref.depth + 1 < max_depth) →
      (task_group_round_trip max_depth my_rank n_ranks ws).tls_tg_version
        = ws.tls_tg_version) := by
  by_cases hcw : ws.tls_drange.is_cross_worker
  · by_cases hd : ws.tls_ref.depth + 1 < max_depth
    · simp [task_group_round_trip, task_group_begin, task_group_end, on_task_die,
        set_dominant, dtree_append, hcw, hd, howner]
    · simp [task_group_round_trip, task_group_begin, task_group_end, on_task_die,
        set_dominant, dtree_append, hcw, hd, howner]
  · simp [task_group_round_trip, task_group_begin, task_group_end, on_task_die,
      set_dominant, dtree_append, hcw, howner]

/-- Witness for C5 amended on a concrete state: the counterexample
state, whose owner rank is 0. -/
theorem C5_task_group_round_trip_amended_w :
    (task_group_round_trip 2 0 4 c5Init).tls_drange = c5Init.tls_drange ∧
    (task_group_round_trip 2 0 4 c5Init).tls_ref = c5Init.tls_ref ∧
    (task_group_round_trip 2 0 4 c5Init).primary_wsq = c5Init.primary_wsq := by
  have h := C5_task_group_round_trip_amended 2 0 4 c5Init (by decide)
  exact ⟨h.1, h.2.1, h.2.2.1⟩

/-- Events that change the primary queues while the scheduler context
is running: the scheduler pop (pop_from_primary_queues, owner end),
a remote steal (thief end), and the push of a freshly evacuated
continuation performed right before resuming the scheduler
(check_cross_worker_task_arrival); the push is guarded so that only
entries with a non-null evacuation pointer enter during this phase,
exactly as every such push site in the source does. -/
inductive SchedEv where
  | popPrim (d : ℕ)
  | stealPrim (d : ℕ)
  | pushEvac (d : ℕ) (e : PrimaryWsqEntry)

/-- Effect of one scheduler-phase event on the per-depth primary
queues. -/
def schedStep (qs : ℕ → List PrimaryWsqEntry) : SchedEv → (ℕ → List PrimaryWsqEntry)
  | .popPrim d => fun d0 => if d0 = d then (qs d).tail else qs d0
  | .stealPrim d => fun d0 => if d0 = d then (qs d).dropLast else qs d0
  | .pushEvac d e =>
      if e.evacuation_ptr ≠ none then
        fun d0 => if d0 = d then e :: qs d else qs d0
      else qs

/-- All entries of the primary queues carry a non-null evacuation
pointer. -/
def allEvacuated (qs : ℕ → List PrimaryWsqEntry) : Prop :=
  ∀ d e, e ∈ qs d → e.evacuation_ptr ≠ none

lemma evacP_ptr (e : PrimaryWsqEntry) : (evacP e).evacuation_ptr ≠ none := by
  unfold evacP
  by_cases h : e.evacuation_ptr = none
  · simp [h]
  · simp [h]

lemma evacuate_all_primary_allEvacuated (dep : ℤ) (qs : ℕ → List PrimaryWsqEntry)
    (hdeep : ∀ d : ℕ, dep < (d : ℤ) → qs d = []) :
    allEvacuated (evacuate_all_primary dep qs) := by
  intro d e he
  unfold evacuate_all_primary at he
  by_cases hd : (d : ℤ) ≤ dep
  · rw [if_pos hd] at he
    obtain ⟨e0, _, he0⟩ := List.mem_map.mp he
    rw [← he0]
    exact evacP_ptr e0
  · rw [if_neg hd] at he
    rw [hdeep d (lt_of_not_le hd)] at he
    exact absurd he (List.not_mem_nil e)

lemma schedStep_allEvacuated (qs : ℕ → List PrimaryWsqEntry) (ev : SchedEv)
    (h : allEvacuated qs) : allEvacuated (schedStep qs ev) := by
  cases ev with
  | popPrim d =>
      intro d0 e he
      simp only [schedStep] at he
      by_cases hd : d0 = d
      · rw [if_pos hd] at he
        exact h d e (List.mem_of_mem_tail he)
      · rw [if_neg hd] at he
        exact h d0 e he
  | stealPrim d =>
      intro d0 e he
      simp only [schedStep] at he
      by_cases hd : d0 = d
      · rw [if_pos hd] at he
        exact h d e (List.dropLast_subset _ he)
      · rw [if_neg hd] at he
        exact h d0 e he
  | pushEvac d enew =>
      intro d0 e he
      simp only [schedStep] at he
      by_cases hp : enew.evacuation_ptr ≠ none
      · rw [if_pos hp] at he
        by_cases hd : d0 = d
        · rw [if_pos hd] at he
          rcases List.mem_cons.mp he with rfl | hmem
          · exact hp
          · exact h d e hmem
        · rw [if_neg hd] at he
          exact h d0 e he
      · rw [if_neg hp] at he
        exact h d0 e he

lemma schedRun_allEvacuated (evs : List SchedEv) (qs : ℕ → List PrimaryWsqEntry)
    (h : allEvacuated qs) : allEvacuated (evs.foldl schedStep qs) := by
  induction evs generalizing qs with
  | nil => exact h
  | cons ev rest ih =>
      exact ih _ (schedStep_allEvacuated qs ev h)

/-- C6.  Scheduler-phase pops of the primary queues always see an
evacuated continuation: when a thread suspends back to the scheduler
it evacuates all on-stack continuations at depths up to its own depth
(evacuate_all) and deeper queues are empty, and every queue change
while the scheduler context runs is a pop, a steal, or a push of an
already evacuated continuation; therefore any entry found at the head
of any primary queue at any later point of the scheduler phase carries
a non-null evacuation pointer, which is the assertion at the pop site
of sched_loop. -/
theorem C6_sched_pop_evacuated (dep : ℤ) (qs : ℕ → List PrimaryWsqEntry)
    (hdeep : ∀ d : ℕ, dep < (d : ℤ) → qs d = [])
    (evs : List SchedEv) (d : ℕ) (e : PrimaryWsqEntry)
    (hpop : (evs.foldl schedStep (evacuate_all_primary dep qs) d).head? = some e) :
    e.evacuation_ptr ≠ none := by
  have hall : allEvacuated (evs.foldl schedStep (evacuate_all_primary dep qs)) :=
    schedRun_allEvacuated evs _ (evacuate_all_primary_allEvacuated dep qs hdeep)
  exact hall d e (List.mem_of_mem_head? hpop)

/-- Witness for C6: depth 0 holds one on-stack continuation, the
suspending thread evacuates it, the scheduler then receives one
evacuated push and pops twice; the popped head is evacuated. -/
theorem C6_sched_pop_evacuated_w :
    (PrimaryWsqEntry.mk (some 3) 3 32 ⟨0⟩).evacuation_ptr ≠ none := by
  refine C6_sched_pop_evacuated 0 (fun d => if d = 0 then [⟨none, 3, 32, ⟨0⟩⟩] else [])
    (by
      intro d hd
      have hne : d ≠ 0 := by
        intro h0
        rw [h0] at hd
        exact absurd hd (by norm_num)
      simp [hne])
    [SchedEv.pushEvac 0 ⟨some 5, 9, 16, ⟨0⟩⟩, SchedEv.popPrim 0] 0
    (PrimaryWsqEntry.mk (some 3) 3 32 ⟨0⟩) ?_
  decide

/-- Where fork sends the new task: run it inline under the work-first
policy, send it through the cross-worker mailbox, or pass it to the
migration queue of the target rank. -/
inductive ForkPath where
  | workFirst
  | mailboxSend (target : ℤ)
  | migrationPass (target : ℤ)
deriving DecidableEq

/-- Outcome of the fork dispatch: the chosen path, the range of the
new task, and the range kept by the forking thread. -/
structure ForkDecision where
  path : ForkPath
  new_drange : DistRange
  rest_drange : DistRange
deriving DecidableEq

/-- Range and target computation of scheduler_adws::fork: a
cross-worker range is first snapped to the end boundary when
sufficiently small, then divided with weights (w_rest, w_new); the new
task runs work-first when the owner of the new range is the calling
rank, otherwise it is sent to that owner through the cross-worker
mailbox (cross-worker new range) or the migration queue; a
non-cross-worker range takes the quick path, keeping the range whole
and always running work-first on the calling rank. -/
def fork_dispatch (minSize : ℚ) (my_rank : ℤ) (drange : DistRange)
    (w_new w_rest : ℚ) : ForkDecision :=
  if drange.is_cross_worker then
    let dr := if DistRange.is_sufficiently_small minSize drange
              then drange.move_to_end_boundary else drange
    let p := dr.divide w_rest w_new
    let target := p.2.owner
    if target = my_rank then ⟨.workFirst, p.2, p.1⟩
    else if p.2.is_cross_worker then ⟨.mailboxSend target, p.2, p.1⟩
    else ⟨.migrationPass target, p.2, p.1⟩
  else ⟨.workFirst, drange, drange⟩

/-- The range a fork divides: the current range, snapped to the end
boundary when sufficiently small (fork, cross-worker branch). -/
def snapIfSmall (minSize : ℚ) (dr : DistRange) : DistRange :=
  if DistRange.is_sufficiently_small minSize dr then dr.move_to_end_boundary else dr

/-- The child range produced by a fork with weights w_new = 0 and
w_rest = 1 on a cross-worker range. -/
def zeroWeightChild (minSize : ℚ) (dr : DistRange) : DistRange :=
  ((snapIfSmall minSize dr).divide 1 0).2

/-- Thread handler as join sees it (struct thread_handler): either the
child was serialized at the fork and the handler carries its return
value, or the value lives in the thread state. -/
structure ThreadHandler (α : Type) where
  serialized : Bool
  retval_ser : α

/-- Handler state left by the work-first fast path when the child is
serialized at the fork (fork, after on_die_workfirst returns). -/
def forkWorkFirstSerialize {α : Type} (ret : α) : ThreadHandler α :=
  ⟨true, ret⟩

/-- scheduler_adws::join: a serialized child returns the value stored
in the handler without touching the thread state; otherwise the value
comes from the thread state (abstracted as the second argument). -/
def joinThread {α : Type} (th : ThreadHandler α) (remoteVal : α) : α :=
  if th.serialized then th.retval_ser else remoteVal

/-- C7 counterexample.  Forking with w_new = 0 and w_rest = 1 from a
thread whose range is the cross-worker range zero to two on rank 0
does not degenerate to an inline call: the divide puts the child at
the epsilon sliver at the end of the range, whose owner is rank 1, and
the child is sent to rank 1 through the cross-worker mailbox. -/
theorem C7_fork_zero_weight_cex :
    (fork_dispatch (1 / 64) 0 ⟨0, 2⟩ 0 1).path = ForkPath.mailboxSend 1 ∧
    (fork_dispatch (1 / 64) 0 ⟨0, 2⟩ 0 1).path ≠ ForkPath.workFirst := by
  have hr0 : rtrunc (0 : ℚ) = 0 := by
    rw [rtrunc_eq_floor _ (by norm_num)]
    norm_num
  have hr2 : rtrunc (2 : ℚ) = 2 := by
    rw [rtrunc_eq_floor _ (by norm_num)]
    norm_num
  have hrs : rtrunc (2 - 1 / 100000 : ℚ) = 1 := by
    rw [rtrunc_eq_floor _ (by norm_num), Int.floor_eq_iff]
    norm_num
  have hcw : (⟨0, 2⟩ : DistRange).is_cross_worker := by
    show rtrunc (0 : ℚ) ≠ rtrunc (2 : ℚ)
    rw [hr0, hr2]
    norm_num
  have hsmall : ¬DistRange.is_sufficiently_small (1 / 64) ⟨0, 2⟩ := by
    show ¬((2 : ℚ) - 0 < 1 / 64)
    norm_num
  have hdiv : DistRange.divide ⟨0, 2⟩ 1 0 =
      (⟨0, 2 - 1 / 100000⟩, ⟨2 - 1 / 100000, 2⟩) := by
    unfold DistRange.divide divideEps
    norm_num
  have hmain : fork_dispatch (1 / 64) 0 ⟨0, 2⟩ 0 1 =
      ⟨.mailboxSend 1, ⟨2 - 1 / 100000, 2⟩, ⟨0, 2 - 1 / 100000⟩⟩ := by
    unfold fork_dispatch
    rw [if_pos hcw, if_neg hsmall]
    simp only [hdiv]
    have howner : (⟨2 - 1 / 100000, 2⟩ : DistRange).owner = 1 := hrs
    rw [howner]
    rw [if_neg (show ¬(1 : ℤ) = 0 by norm_num)]
    have hc2 : (⟨2 - 1 / 100000, 2⟩ : DistRange).is_cross_worker := by
      show rtrunc (2 - 1 / 100000 : ℚ) ≠ rtrunc (2 : ℚ)
      rw [hrs, hr2]
      norm_num
    rw [if_pos hc2]
  rw [hmain]
  exact ⟨rfl, by simp⟩

/-- C7 amended.  Forking with w_new = 0 and w_rest = 1 degenerates to
an inline work-first call on the calling worker whenever the current
range is not cross-worker (and then the serialized join returns the
value of the forked function directly); for a cross-worker range the
split point is exactly the end of the (possibly snapped) range, the
epsilon back-off makes the child range the sliver from end minus
epsilon (clamped at begin) to end, and the fork is inline if and only
if the owner of that sliver is the calling rank; otherwise the child
is sent to that owner. -/
theorem C7_fork_zero_weight_amended (minSize : ℚ) (my_rank : ℤ) (dr : DistRange) :
    (¬dr.is_cross_worker →
      fork_dispatch minSize my_rank dr 0 1 = ⟨.workFirst, dr, dr⟩ ∧
      ∀ (α : Type) (ret remote : α), joinThread (forkWorkFirstSerialize ret) remote = ret) ∧
    (dr.is_cross_worker →
      (zeroWeightChild minSize dr).begin_ =
        max (snapIfSmall minSize dr).begin_ ((snapIfSmall minSize dr).end_ - divideEps) ∧
      (zeroWeightChild minSize dr).end_ = (snapIfSmall minSize dr).end_ ∧
      ((fork_dispatch minSize my_rank dr 0 1).path = .workFirst ↔
        (zeroWeightChild minSize dr).owner = my_rank) ∧
      ((zeroWeightChild minSize dr).owner ≠ my_rank →
        (fork_dispatch minSize my_rank dr 0 1).path =
          .mailboxSend (zeroWeightChild minSize dr).owner ∨
        (fork_dispatch minSize my_rank dr 0 1).path =
          .migrationPass (zeroWeightChild minSize dr).owner)) := by
  constructor
  · intro hncw
    constructor
    · simp [fork_dispatch, hncw]
    · intro α ret remote
      simp [joinThread, forkWorkFirstSerialize]
  · intro hcw
    have hat0 : (snapIfSmall minSize dr).begin_ +
        ((snapIfSmall minSize dr).end_ - (snapIfSmall minSize dr).begin_) * 1 / (1 + 0) =
        (snapIfSmall minSize dr).end_ := by
      ring
    have hmid : ((snapIfSmall minSize dr).divide 1 0).1.end_ =
        max (snapIfSmall minSize dr).begin_ ((snapIfSmall minSize dr).end_ - divideEps) := by
      unfold DistRange.divide
      simp only [hat0, if_pos rfl]
      rcases le_total (snapIfSmall minSize dr).begin_
          ((snapIfSmall minSize dr).end_ - divideEps) with h | h
      · rw [max_eq_right h]
        by_cases hlt : (snapIfSmall minSize dr).end_ - divideEps < (snapIfSmall minSize dr).begin_
        · exact absurd h (not_le.mpr hlt)
        · simp [hlt]
      · rw [max_eq_left h]
        by_cases hlt : (snapIfSmall minSize dr).end_ - divideEps < (snapIfSmall minSize dr).begin_
        · simp [hlt]
        · have heq : (snapIfSmall minSize dr).end_ - divideEps = (snapIfSmall minSize dr).begin_ :=
            le_antisymm h (not_lt.mp hlt)
          simp [hlt, heq]
    have hdisp : fork_dispatch minSize my_rank dr 0 1 =
        (if (zeroWeightChild minSize dr).owner = my_rank then
          ⟨.workFirst, zeroWeightChild minSize dr, ((snapIfSmall minSize dr).divide 1 0).1⟩
        else if (zeroWeightChild minSize dr).is_cross_worker then
          ⟨.mailboxSend (zeroWeightChild minSize dr).owner, zeroWeightChild minSize dr,
            ((snapIfSmall minSize dr).divide 1 0).1⟩
        else
          ⟨.migrationPass (zeroWeightChild minSize dr).owner, zeroWeightChild minSize dr,
            ((snapIfSmall minSize dr).divide 1 0).1⟩) := by
      unfold fork_dispatch zeroWeightChild snapIfSmall
      rw [if_pos hcw]
    refine ⟨?_, rfl, ?_, ?_⟩
    · show ((snapIfSmall minSize dr).divide 1 0).2.begin_ = _
      rw [← divide_mid_eq]
      exact hmid
    · rw [hdisp]
      by_cases ht : (zeroWeightChild minSize dr).owner = my_rank
      · rw [if_pos ht]
        simpa using ht
      · rw [if_neg ht]
        by_cases hc2 : (zeroWeightChild minSize dr).is_cross_worker
        · rw [if_pos hc2]
          simpa using ht
        · rw [if_neg hc2]
          simpa using ht
    · intro ht
      rw [hdisp, if_neg ht]
      by_cases hc2 : (zeroWeightChild minSize dr).is_cross_worker
      · rw [if_pos hc2]
        exact Or.inl rfl
      · rw [if_neg hc2]
        exact Or.inr rfl

/-- Witness for C7 amended: a non-cross-worker range forks inline and
the serialized join returns the forked value. -/
theorem C7_fork_zero_weight_amended_w :
    fork_dispatch (1 / 64) 0 ⟨0, 1 / 2⟩ 0 1 =
      ⟨.workFirst, ⟨0, 1 / 2⟩, ⟨0, 1 / 2⟩⟩ ∧
    joinThread (forkWorkFirstSerialize (42 : ℕ)) 0 = 42 := by
  have h0 : rtrunc (0 : ℚ) = 0 := by
    rw [rtrunc_eq_floor _ (by norm_num)]
    norm_num
  have hh : rtrunc (1 / 2 : ℚ) = 0 := by
    rw [rtrunc_eq_floor _ (by norm_num), Int.floor_eq_iff]
    norm_num
  have hncw : ¬(⟨0, 1 / 2⟩ : DistRange).is_cross_worker := by
    show ¬(rtrunc (0 : ℚ) ≠ rtrunc (1 / 2 : ℚ))
    rw [h0, hh]
    simp
  have h := (C7_fork_zero_weight_amended (1 / 64) 0 ⟨0, 1 / 2⟩).1 hncw
  exact ⟨h.1, h.2 ℕ 42 0⟩

/-- Modelled from the spec: common::next_pow2, the smallest power of
two greater than or equal to the argument, is not under src; the spec
describes the broadcast as a next_pow2(N)-tree, which is the power
2 ^ Nat.clog 2 n. -/
def next_pow2 (n : ℕ) : ℕ := 2 ^ Nat.clog 2 n

/-- Rank shift used by execute_coll_task: position of a rank in the
broadcast tree rooted at the originating rank
((my_rank + n_ranks - begin_rank) mod n_ranks). -/
def coll_shift (n br my : ℕ) : ℕ := (my + n - br) % n

/-- Targets of the mailbox puts of execute_coll_task on one rank.  The
source iterates i over next_pow2 n, next_pow2 n / 2, ..., 2 and sends
to shifted + i / 2 whenever i divides the shifted rank and the target
is below n; the list below enumerates the same set of i values as
2 ^ (j + 1) for j below Nat.clog 2 n. -/
def coll_send_targets (n br my : ℕ) : List ℕ :=
  (List.range (Nat.clog 2 n)).filterMap fun j =>
    if coll_shift n br my % 2 ^ (j + 1) = 0 ∧ coll_shift n br my + 2 ^ j < n then
      some ((coll_shift n br my + 2 ^ j + br) % n)
    else none

/-- Events of one execute_coll_task call: the mailbox puts, then a
barrier, the task execution, and a closing barrier. -/
inductive CollEv where
  | send (target : ℕ)
  | barrier
  | exec
deriving DecidableEq

/-- scheduler_adws::execute_coll_task as the sequence of its externally
visible events on one rank. -/
def execute_coll_task_events (n br my : ℕ) : List CollEv :=
  (coll_send_targets n br my).map CollEv.send ++ [CollEv.barrier, CollEv.exec, CollEv.barrier]

/-- Edge relation of the broadcast tree in shifted rank space: s sends
the collective task to t. -/
def coll_sendsS (n s t : ℕ) : Bool :=
  decide (∃ j ∈ Finset.range (Nat.clog 2 n), s % 2 ^ (j + 1) = 0 ∧ t = s + 2 ^ j ∧ t < n)

/-- A shifted rank obtains the collective task: rank 0 is the origin,
any other rank must receive it from a lower shifted rank that obtained
it. -/
def coll_reaches (n t : ℕ) : Bool :=
  if t = 0 then true
  else (List.range t).attach.any fun s => coll_sendsS n s.1 t && coll_reaches n s.1
termination_by t
decreasing_by exact List.mem_range.mp s.2

/-- Storage of the collective task return value (coll_exec,
coll_task_fn): only the originating rank stores the result. -/
def coll_task_store {α : Type} (my br : ℕ) (r : α) : Option α :=
  if my = br then some r else none

lemma coll_sendsS_iff (n s t : ℕ) :
    coll_sendsS n s t = true ↔
    ∃ j, j < Nat.clog 2 n ∧ s % 2 ^ (j + 1) = 0 ∧ t = s + 2 ^ j ∧ t < n := by
  unfold coll_sendsS
  simp [Finset.mem_range]

lemma coll_sender_exists (n t : ℕ) (ht : 0 < t) (htn : t < n) :
    ∃ j s, j < Nat.clog 2 n ∧ s % 2 ^ (j + 1) = 0 ∧ t = s + 2 ^ j := by
  obtain ⟨v, m, hm2, hvm⟩ := Nat.exists_eq_pow_mul_and_not_dvd ht.ne' 2 (by norm_num)
  have hm1 : m % 2 = 1 := by
    rcases Nat.mod_two_eq_zero_or_one m with h | h
    · exact absurd (Nat.dvd_of_mod_eq_zero h) hm2
    · exact h
  have hmq : m = 2 * (m / 2) + 1 := by omega
  refine ⟨v, 2 ^ (v + 1) * (m / 2), ?_, Nat.mul_mod_right _ _, ?_⟩
  · have h2v : 2 ^ v ≤ t := by
      rw [hvm]
      calc 2 ^ v = 2 ^ v * 1 := (mul_one _).symm
        _ ≤ 2 ^ v * m := Nat.mul_le_mul_left _ (by omega)
    have hn2 : n ≤ 2 ^ Nat.clog 2 n := Nat.le_pow_clog (by norm_num) n
    have hpow : 2 ^ v < 2 ^ Nat.clog 2 n := lt_of_le_of_lt h2v (lt_of_lt_of_le htn hn2)
    exact (Nat.pow_lt_pow_iff_right (by norm_num)).mp hpow
  · rw [hvm]
    nth_rewrite 1 [hmq]
    rw [pow_succ]
    ring

lemma coll_send_mod {s j t : ℕ} (hmod : s % 2 ^ (j + 1) = 0) (ht : t = s + 2 ^ j) :
    t % 2 ^ (j + 1) = 2 ^ j := by
  subst ht
  have hlt : 2 ^ j < 2 ^ (j + 1) := Nat.pow_lt_pow_succ (by norm_num)
  rw [Nat.add_mod, hmod]
  simp [Nat.mod_eq_of_lt hlt]

lemma coll_sender_unique {t j s j0 s0 : ℕ}
    (h1 : s % 2 ^ (j + 1) = 0) (e1 : t = s + 2 ^ j)
    (h2 : s0 % 2 ^ (j0 + 1) = 0) (e2 : t = s0 + 2 ^ j0) : j = j0 ∧ s = s0 := by
  have key : ∀ {a b sa sb : ℕ}, a < b → sa % 2 ^ (a + 1) = 0 → t = sa + 2 ^ a →
      sb % 2 ^ (b + 1) = 0 → t = sb + 2 ^ b → False := by
    intro a b sa sb hab hma hea hmb heb
    have hta := coll_send_mod hma hea
    have htb := coll_send_mod hmb heb
    have hdvd : (2 : ℕ) ^ (a + 1) ∣ 2 ^ (b + 1) := pow_dvd_pow 2 (by omega)
    have hstep : t % 2 ^ (a + 1) = t % 2 ^ (b + 1) % 2 ^ (a + 1) :=
      (Nat.mod_mod_of_dvd t hdvd).symm
    rw [htb] at hstep
    have hdvd2 : (2 : ℕ) ^ (a + 1) ∣ 2 ^ b := pow_dvd_pow 2 (by omega)
    have hz : (2 : ℕ) ^ b % 2 ^ (a + 1) = 0 := Nat.mod_eq_zero_of_dvd hdvd2
    rw [hz, hta] at hstep
    exact absurd hstep (pow_ne_zero a (by norm_num))
  have hj : j = j0 := by
    by_contra hne
    rcases Nat.lt_or_ge j j0 with hlt | hge
    · exact key hlt h1 e1 h2 e2
    · exact key (lt_of_le_of_ne hge (Ne.symm hne) : j0 < j) h2 e2 h1 e1
  subst hj
  exact ⟨rfl, by omega⟩

lemma coll_shift_lt (n br my : ℕ) (hn : 0 < n) : coll_shift n br my < n :=
  Nat.mod_lt _ hn

lemma coll_unshift_shift (n br x : ℕ) (hbr : br ≤ n) (hx : x < n) :
    (coll_shift n br x + br) % n = x := by
  unfold coll_shift
  rw [Nat.mod_add_mod]
  have h1 : x + n - br + br = x + n := by omega
  rw [h1, Nat.add_mod_right, Nat.mod_eq_of_lt hx]

lemma coll_shift_unshift (n br y : ℕ) (hbr : br ≤ n) (hy : y < n) :
    coll_shift n br ((y + br) % n) = y := by
  unfold coll_shift
  have h1 : (y + br) % n + n - br = (y + br) % n + (n - br) := by omega
  rw [h1, Nat.mod_add_mod]
  have h2 : y + br + (n - br) = y + n := by omega
  rw [h2, Nat.add_mod_right, Nat.mod_eq_of_lt hy]

lemma coll_shift_inj (n br x1 x2 : ℕ) (hbr : br ≤ n) (h1 : x1 < n) (h2 : x2 < n)
    (heq : coll_shift n br x1 = coll_shift n br x2) : x1 = x2 := by
  have e1 := coll_unshift_shift n br x1 hbr h1
  have e2 := coll_unshift_shift n br x2 hbr h2
  rw [← e1, ← e2, heq]

lemma coll_shift_br (n br : ℕ) (hbr : br ≤ n) : coll_shift n br br = 0 := by
  unfold coll_shift
  have h1 : br + n - br = n := by omega
  rw [h1, Nat.mod_self]

lemma mem_coll_send_targets (n br my t : ℕ) :
    t ∈ coll_send_targets n br my ↔
    ∃ j, j < Nat.clog 2 n ∧ coll_shift n br my % 2 ^ (j + 1) = 0 ∧
      coll_shift n br my + 2 ^ j < n ∧ t = (coll_shift n br my + 2 ^ j + br) % n := by
  unfold coll_send_targets
  constructor
  · intro h
    obtain ⟨j, hj, hx⟩ := List.mem_filterMap.mp h
    rw [List.mem_range] at hj
    by_cases hc : coll_shift n br my % 2 ^ (j + 1) = 0 ∧ coll_shift n br my + 2 ^ j < n
    · rw [if_pos hc] at hx
      exact ⟨j, hj, hc.1, hc.2, (Option.some_inj.mp hx).symm⟩
    · rw [if_neg hc] at hx
      cases hx
  · rintro ⟨j, hj, hc1, hc2, rfl⟩
    exact List.mem_filterMap.mpr ⟨j, List.mem_range.mpr hj, by rw [if_pos ⟨hc1, hc2⟩]⟩

lemma coll_send_mem_events (n br my t : ℕ) :
    CollEv.send t ∈ execute_coll_task_events n br my ↔ t ∈ coll_send_targets n br my := by
  unfold execute_coll_task_events
  simp

lemma coll_sends_actual_iff (n br s t : ℕ) (hbr : br < n) (ht : t < n) :
    CollEv.send t ∈ execute_coll_task_events n br s ↔
    ∃ j, j < Nat.clog 2 n ∧ coll_shift n br s % 2 ^ (j + 1) = 0 ∧
      coll_shift n br s + 2 ^ j < n ∧ coll_shift n br t = coll_shift n br s + 2 ^ j := by
  rw [coll_send_mem_events, mem_coll_send_targets]
  constructor
  · rintro ⟨j, hj, hc1, hc2, rfl⟩
    exact ⟨j, hj, hc1, hc2, coll_shift_unshift n br _ (le_of_lt hbr) hc2⟩
  · rintro ⟨j, hj, hc1, hc2, hsh⟩
    refine ⟨j, hj, hc1, hc2, ?_⟩
    rw [← hsh, coll_unshift_shift n br t (le_of_lt hbr) ht]

lemma coll_reaches_all (n : ℕ) : ∀ t, t < n → coll_reaches n t = true := by
  intro t
  induction t using Nat.strong_induction_on with
  | _ t ih =>
      intro htn
      by_cases ht0 : t = 0
      · rw [ht0, coll_reaches]
        simp
      · obtain ⟨j, s, hj, hmod, hts⟩ :=
          coll_sender_exists n t (Nat.pos_of_ne_zero ht0) htn

        have hst : s < t := by
          have : 0 < 2 ^ j := Nat.pos_pow_of_pos j (by norm_num)
          omega
        have hsends : coll_sendsS n s t = true :=
          (coll_sendsS_iff n s t).mpr ⟨j, hj, hmod, hts, htn⟩
        rw [coll_reaches, if_neg ht0]
        apply List.any_eq_true.mpr
        refine ⟨⟨s, List.mem_range.mpr hst⟩, List.mem_attach _ _, ?_⟩
        rw [Bool.and_eq_true]
        exact ⟨hsends, ih s hst (lt_trans hst htn)⟩

/-- C8.  Collective task broadcast: with n workers and an originating
rank br, every rank other than br receives the task through the
coll-task mailbox from exactly one sender, the originating rank never
receives it, every (shifted) rank is reached from the origin along the
binary tree, every rank executes the task between a leading and a
trailing barrier of its event sequence, and the return value is stored
exactly on the initiating rank. -/
theorem C8_coll_exec_once (n br : ℕ) (hbr : br < n) :
    (∀ t, t < n → t ≠ br →
      ∃! s, s < n ∧ CollEv.send t ∈ execute_coll_task_events n br s) ∧
    (∀ s, CollEv.send br ∉ execute_coll_task_events n br s) ∧
    (∀ u, u < n → coll_reaches n u = true) ∧
    (∀ my, ∃ pre, execute_coll_task_events n br my =
        pre ++ [CollEv.barrier, CollEv.exec, CollEv.barrier] ∧
      ∀ ev ∈ pre, ∃ tg, ev = CollEv.send tg) ∧
    (∀ (α : Type) (r : α) (my : ℕ), coll_task_store my br r = some r ↔ my = br) := by
  have hbr' : br ≤ n := le_of_lt hbr
  refine ⟨?_, ?_, coll_reaches_all n, ?_, ?_⟩
  · intro t htn htbr
    have htpos : 0 < coll_shift n br t := by
      rcases Nat.eq_zero_or_pos (coll_shift n br t) with h0 | hpos
      · exfalso
        apply htbr
        have hb0 : coll_shift n br br = 0 := coll_shift_br n br hbr'
        exact coll_shift_inj n br t br hbr' htn hbr (h0.trans hb0.symm)
      · exact hpos
    obtain ⟨j, sS, hj, hmod, hts⟩ :=
      coll_sender_exists n (coll_shift n br t) htpos (coll_shift_lt n br t (by omega))
    have hsSlt : sS + 2 ^ j < n := by
      rw [← hts]
      exact coll_shift_lt n br t (by omega)
    refine ⟨(sS + br) % n, ⟨Nat.mod_lt _ (by omega), ?_⟩, ?_⟩
    · rw [coll_sends_actual_iff n br _ t hbr htn]
      refine ⟨j, hj, ?_, ?_, ?_⟩
      · rw [coll_shift_unshift n br sS hbr' (by omega)]
        exact hmod
      · rw [coll_shift_unshift n br sS hbr' (by omega)]
        exact hsSlt
      · rw [coll_shift_unshift n br sS hbr' (by omega)]
        exact hts
    · rintro s0 ⟨hs0n, hs0⟩
      rw [coll_sends_actual_iff n br s0 t hbr htn] at hs0
      obtain ⟨j0, hj0, hmod0, hlt0, hts0⟩ := hs0
      obtain ⟨hjj, hss⟩ := coll_sender_unique hmod0 hts0 hmod hts
      rw [← hss, coll_unshift_shift n br s0 hbr' hs0n]
  · intro s hmem
    rw [coll_sends_actual_iff n br s br hbr hbr] at hmem
    obtain ⟨j, hj, hmod, hlt, hts⟩ := hmem
    rw [coll_shift_br n br hbr'] at hts
    have : 0 < 2 ^ j := Nat.pos_pow_of_pos j (by norm_num)
    omega
  · intro my
    refine ⟨(coll_send_targets n br my).map CollEv.send, rfl, ?_⟩
    intro ev hev
    obtain ⟨tg, _, rfl⟩ := List.mem_map.mp hev
    exact ⟨tg, rfl⟩
  · intro α r my
    unfold coll_task_store
    by_cases h : my = br
    · simp [h]
    · simp [h]

/-- Witness for C8 with four workers rooted at rank 1: rank 3 has a
unique sender and rank 2 executes between barriers. -/
theorem C8_coll_exec_once_w :
    (∃! s, s < 4 ∧ CollEv.send 3 ∈ execute_coll_task_events 4 1 s) ∧
    (∀ u, u < 4 → coll_reaches 4 u = true) ∧
    (coll_task_store 1 1 (7 : ℕ) = some 7 ↔ (1 : ℕ) = 1) := by
  have h := C8_coll_exec_once 4 1 (by norm_num)
  exact ⟨h.1 3 (by norm_num) (by norm_num), h.2.2.1, h.2.2.2.2 ℕ 7 1⟩

/-- Home manager state: the per-entry reference counts of the mmap
entries and the home TLB, a list of cached segments (address, size)
with the index of their mmap entry. -/
structure HomeState where
  ref_count : ℕ → ℤ
  tlb : List ((ℕ × ℕ) × ℕ)

/-- Modelled from the spec: the tlb class (ityr/ori/tlb.hpp) is not
under src; home_tlb_.get returns a cached mmap entry whose home
segment covers the queried interval, with the covering predicate taken
from the call sites in checkout_fast and checkin_fast
(seg.data() <= addr and addr + size <= seg.data() + seg.size()). -/
def tlb_get (tlb : List ((ℕ × ℕ) × ℕ)) (addr size : ℕ) : Option ℕ :=
  (tlb.find? fun seg =>
    decide (seg.1.1 ≤ addr ∧ addr + size ≤ seg.1.1 + seg.1.2)).map (fun x => x.2)

/-- home_manager::checkout_fast: a TLB miss fails (the caller falls to
the slow path); a hit bumps the reference count of the covering entry
when the template parameter IncrementRef is set. -/
def checkout_fast (incRef : Bool) (st : HomeState) (addr size : ℕ) :
    Bool × HomeState :=
  match tlb_get st.tlb addr size with
  | none => (false, st)
  | some id =>
      (true,
       if incRef then
         { st with ref_count := fun i => if i = id then st.ref_count i + 1 else st.ref_count i }
       else st)

/-- home_manager::checkin_fast: returns false doing nothing when the
template parameter DecrementRef is unset; otherwise a TLB hit drops
the reference count of the covering entry. -/
def checkin_fast (decRef : Bool) (st : HomeState) (addr size : ℕ) :
    Bool × HomeState :=
  if decRef = false then (false, st)
  else
    match tlb_get st.tlb addr size with
    | none => (false, st)
    | some id =>
        (true,
         { st with ref_count := fun i => if i = id then st.ref_count i - 1 else st.ref_count i })

/-- home_manager::mmap_entry::is_evictable: the entry may be evicted
exactly when its reference count is zero. -/
def is_evictable (st : HomeState) (id : ℕ) : Prop :=
  st.ref_count id = 0

instance (st : HomeState) (id : ℕ) : Decidable (is_evictable st id) := by
  unfold is_evictable; infer_instance

/-- home_manager::mmap_entry::on_evict guarded by is_evictable (the
cache system evicts only evictable entries and on_evict asserts it):
eviction clears the TLB and leaves the reference counts alone; a
non-evictable entry cannot be evicted. -/
def on_evict (st : HomeState) (id : ℕ) : Option HomeState :=
  if is_evictable st id then some { st with tlb := [] } else none

/-- C9.  Home manager reference counting: an mmap entry is evictable
exactly when its reference count is zero and eviction succeeds only
then; a successful reference-taking checkout bumps exactly the
covering entry; a TLB miss changes nothing; and a matched
checkout/checkin pair over the same interval returns every reference
count to its initial value. -/
theorem C9_home_refcount :
    (∀ (st : HomeState) (id : ℕ),
      ((on_evict st id).isSome = true ↔ st.ref_count id = 0) ∧
      (∀ st1, on_evict st id = some st1 → st1.ref_count = st.ref_count)) ∧
    (∀ (st : HomeState) (addr size id : ℕ),
      tlb_get st.tlb addr size = some id →
      (checkout_fast true st addr size).1 = true ∧
      (checkout_fast true st addr size).2.ref_count id = st.ref_count id + 1 ∧
      (∀ i, i ≠ id → (checkout_fast true st addr size).2.ref_count i = st.ref_count i) ∧
      (checkin_fast true st addr size).2.ref_count id = st.ref_count id - 1) ∧
    (∀ (st : HomeState) (addr size : ℕ),
      tlb_get st.tlb addr size = none →
      checkout_fast true st addr size = (false, st) ∧
      checkin_fast true st addr size = (false, st)) ∧
    (∀ (st : HomeState) (addr size : ℕ),
      (checkout_fast true st addr size).1 = true →
      (checkin_fast true (checkout_fast true st addr size).2 addr size).1 = true ∧
      (checkin_fast true (checkout_fast true st addr size).2 addr size).2.ref_count
        = st.ref_count) := by
  refine ⟨?_, ?_, ?_, ?_⟩
  · intro st id
    constructor
    · unfold on_evict
      by_cases h : is_evictable st id
      · simp [h]
        exact h
      · simp [h]
        exact fun hc => absurd hc h
    · intro st1 h1
      unfold on_evict at h1
      by_cases h : is_evictable st id
      · rw [if_pos h] at h1
        rw [← Option.some_inj.mp h1]
      · rw [if_neg h] at h1
        cases h1
  · intro st addr size id hget
    unfold checkout_fast checkin_fast
    rw [hget]
    refine ⟨rfl, by simp, ?_, by simp⟩
    intro i hi
    simp [hi]
  · intro st addr size hget
    unfold checkout_fast checkin_fast
    rw [hget]
    exact ⟨rfl, rfl⟩
  · intro st addr size hok
    cases hget : tlb_get st.tlb addr size with
    | none =>
        unfold checkout_fast at hok
        rw [hget] at hok
        cases hok
    | some id =>
        have hst1 : (checkout_fast true st addr size).2 =
            { st with ref_count := fun i => if i = id then st.ref_count i + 1
                                            else st.ref_count i } := by
          unfold checkout_fast
          rw [hget]
          rfl
        have htlb1 : (checkout_fast true st addr size).2.tlb = st.tlb := by
          rw [hst1]
        unfold checkin_fast
        rw [htlb1, hget]
        refine ⟨rfl, ?_⟩
        simp only [hst1]
        funext i
        by_cases hi : i = id
        · simp [hi]
        · simp [hi]

/-- Witness for C9: a one-segment TLB covering bytes 0 to 16 with all
counts zero; checking out bytes 4 to 8 and checking them back in
restores the counts. -/
theorem C9_home_refcount_w :
    (checkout_fast true ⟨fun _ => 0, [((0, 16), 0)]⟩ 4 4).1 = true ∧
    (checkin_fast true (checkout_fast true ⟨fun _ => 0, [((0, 16), 0)]⟩ 4 4).2 4 4).2.ref_count
      = (fun _ => (0 : ℤ)) := by
  have hget : tlb_get ([((0, 16), 0)] : List ((ℕ × ℕ) × ℕ)) 4 4 = some 0 := by
    unfold tlb_get
    simp [List.find?]
  have h2 := C9_home_refcount.2.1 ⟨fun _ => 0, [((0, 16), 0)]⟩ 4 4 0 hget
  have h4 := C9_home_refcount.2.2.2 ⟨fun _ => 0, [((0, 16), 0)]⟩ 4 4 h2.1
  exact ⟨h2.1, h4.2⟩

/-- Distributed contiguous container as at and the index operator see
it (class global_vector): the constructed elements and the reserved
capacity. -/
structure GlobalVector (α : Type) where
  elems : List α
  cap : ℕ

/-- global_vector::size. -/
def gv_size {α : Type} (v : GlobalVector α) : ℕ := v.elems.length

/-- global_vector::capacity. -/
def gv_capacity {α : Type} (v : GlobalVector α) : ℕ := v.cap

/-- global_vector::operator[], dereference of begin plus the index. -/
def gv_opIndex {α : Type} (v : GlobalVector α) (i : ℕ) : Option α := v.elems.get? i

/-- Message of the out-of-range exception raised by global_vector::at. -/
def gv_range_msg : String :=
  "Global vector: index is out of range"

/-- global_vector::at: throws std::out_of_range when the index is not
below the size, otherwise defers to operator[]; the vector itself is
untouched either way (the method is const), which the model expresses
by returning it alongside. -/
def gv_at {α : Type} (v : GlobalVector α) (i : ℕ) :
    Except String α × GlobalVector α :=
  if h : i < v.elems.length then (Except.ok (v.elems.get ⟨i, h⟩), v)
  else (Except.error gv_range_msg, v)

/-- C10.  global_vector::at throws exactly on out-of-range indices,
leaves the size, capacity, and elements unchanged in that case (and in
every case), and agrees with operator[] on in-range indices. -/
theorem C10_global_vector_at (α : Type) (v : GlobalVector α) (i : ℕ) :
    ((∃ msg, (gv_at v i).1 = Except.error msg) ↔ i ≥ gv_size v) ∧
    (gv_at v i).2 = v ∧
    gv_size (gv_at v i).2 = gv_size v ∧
    gv_capacity (gv_at v i).2 = gv_capacity v ∧
    (gv_at v i).2.elems = v.elems ∧
    (∀ h : i < gv_size v,
      (gv_at v i).1 = Except.ok (v.elems.get ⟨i, h⟩) ∧
      gv_opIndex v i = some (v.elems.get ⟨i, h⟩)) := by
  refine ⟨?_, ?_, ?_, ?_, ?_, ?_⟩
  · unfold gv_at
    by_cases h : i < v.elems.length
    · rw [dif_pos h]
      simp [gv_size]
      omega
    · rw [dif_neg h]
      simp [gv_size]
      omega
  · unfold gv_at
    by_cases h : i < v.elems.length
    · rw [dif_pos h]
    · rw [dif_neg h]
  · unfold gv_at
    by_cases h : i < v.elems.length
    · rw [dif_pos h]
    · rw [dif_neg h]
  · unfold gv_at
    by_cases h : i < v.elems.length
    · rw [dif_pos h]
    · rw [dif_neg h]
  · unfold gv_at
    by_cases h : i < v.elems.length
    · rw [dif_pos h]
    · rw [dif_neg h]
  · intro h
    unfold gv_at
    rw [dif_pos (show i < v.elems.length from h)]
    exact ⟨rfl, (List.get?_eq_get h).symm ▸ rfl⟩

/-- Witness for C10: a two-element vector returns its second element
at index 1 and errors at index 5. -/
theorem C10_global_vector_at_w :
    (gv_at (⟨[10, 20], 4⟩ : GlobalVector ℕ) 1).1 = Except.ok 20 ∧
    (∃ msg, (gv_at (⟨[10, 20], 4⟩ : GlobalVector ℕ) 5).1 = Except.error msg) := by
  constructor
  · exact ((C10_global_vector_at ℕ ⟨[10, 20], 4⟩ 1).2.2.2.2.2 (by norm_num [gv_size])).1
  · exact (C10_global_vector_at ℕ ⟨[10, 20], 4⟩ 5).1.mpr (by norm_num [gv_size])

end Ityr
